import Mathlib

/-!
Verification of the Media Description & Embedded-Metadata Engine
(modules/mediaDescriptionManager.js and the segment serializer in
modules/multimediaRecognizer.js), as a shallow embedding.

Conventions of the embedding:
* JavaScript strings are modelled as `List Char`; byte buffers as `List Nat`
  (each element a byte value < 256 wherever it originates from a buffer).
* Fallible operations return `Option`; a thrown-and-caught exception is `none`.
* Node's UTF-8 decoding is modelled by an explicit decoder emitting U+FFFD on
  invalid input; Node's latin1/binary decoding maps each byte to the char of
  the same code point; Node's ascii decoding strips the high bit.
* zlib inflate (an external library the code calls) is an oracle parameter.
* All recursion is structural (an explicit fuel argument stands in for the
  while-loops over a byte offset), so every definition evaluates by kernel
  reduction on concrete inputs.
-/

/-- Character class trimmed by JavaScript String.prototype.trim
(ECMAScript WhiteSpace and LineTerminator code points). -/
def isJsWhitespace (c : Char) : Bool :=
  c = '\t' || c = '\n' || c = '\x0b' || c = '\x0c' || c = '\r' || c = ' ' ||
  c = '\xa0' || c = '\u1680' || ('\u2000' ≤ c && c ≤ '\u200a') ||
  c = '\u2028' || c = '\u2029' || c = '\u202f' || c = '\u205f' ||
  c = '\u3000' || c = '\ufeff'

/-- Drop trailing JS whitespace. -/
def dropTrail (l : List Char) : List Char :=
  (l.reverse.dropWhile isJsWhitespace).reverse

/-- JavaScript String.prototype.trim. -/
def jsTrim (l : List Char) : List Char :=
  dropTrail (l.dropWhile isJsWhitespace)

/-- JavaScript Map.prototype.set on an insertion-ordered association list:
replace the value in place if the key is present, else append at the end. -/
def mapSet (m : List (List Char × List Char)) (k v : List Char) :
    List (List Char × List Char) :=
  if m.any (fun p => decide (p.1 = k)) then
    m.map (fun p => if p.1 = k then (k, v) else p)
  else m ++ [(k, v)]

/-! ## Segmented description model

`parseSegmentedDescription` (mediaDescriptionManager.js lines 161-185) applies
the global regex `\[@([^\]]+):\]([\s\S]*?)(?=\[@[^\]]+:\]|$)` repeatedly.
A marker matches at a position iff the text there is of the form
`[@` name `:]` with name a nonempty run of characters other than `]`
(the greedy `[^\]]+` backtracks exactly to the `:` directly before the first
`]`); the lazy content group extends to the next marker start or the end. -/

/-- If the list starts with a segment marker, return the marker's name.
The marker occupies the first `name.length + 4` characters. -/
def markerName? : List Char → Option (List Char)
  | '[' :: '@' :: rest =>
    let pre := rest.takeWhile (fun c => decide (c ≠ ']'))
    if 2 ≤ pre.length ∧ pre.getLast? = some ':' ∧ pre.length < rest.length then
      some pre.dropLast
    else none
  | _ => none

/-- Number of characters before the first position where a marker starts
(the extent of the lazy content group). -/
def contentLen : List Char → Nat
  | [] => 0
  | c :: cs => if (markerName? (c :: cs)).isSome then 0 else 1 + contentLen cs

/-- The successive raw matches of the segment regex: the scan skips
characters until a marker matches, captures its raw name and the raw content
up to the next marker start, and continues there.  Fuel is an upper bound on
the number of characters left; each step consumes at least one character. -/
def parseRawMatchesAux : Nat → List Char → List (List Char × List Char)
  | 0, _ => []
  | _ + 1, [] => []
  | fuel + 1, c :: cs =>
    match markerName? (c :: cs) with
    | none => parseRawMatchesAux fuel cs
    | some n =>
      let r := (c :: cs).drop (n.length + 4)
      let k := contentLen r
      (n, r.take k) :: parseRawMatchesAux fuel (r.drop k)

def parseRawMatches (l : List Char) : List (List Char × List Char) :=
  parseRawMatchesAux (l.length + 1) l

/-- mediaDescriptionManager.parseSegmentedDescription: collect the matches
into an insertion-ordered map (trimming name and content, skipping empty
content); if no marker matched at all and the trimmed input is nonempty, the
whole trimmed input becomes one segment named Native. -/
def parseSegmentedDescription (s : List Char) : List (List Char × List Char) :=
  if s = [] then []
  else
    let ms := parseRawMatches s
    if ms = [] then
      if jsTrim s = [] then [] else [("Native".data, jsTrim s)]
    else
      ms.foldl (fun acc nc =>
        let n := jsTrim nc.1
        let c := jsTrim nc.2
        if c = [] then acc else mapSet acc n c) []

/-- One serialized segment block, exactly as multimediaRecognizer.js line 130
emits it: the marker, a newline, the content, and a blank line. -/
def serializeBlock (n c : List Char) : List Char :=
  '[' :: '@' :: (n ++ ':' :: ']' :: '\n' :: (c ++ ['\n', '\n']))

/-- Concatenation of all blocks (the fullDescription accumulator). -/
def serializeAll : List (List Char × List Char) → List Char
  | [] => []
  | (n, c) :: rest => serializeBlock n c ++ serializeAll rest

/-- The description string produced by the upsert path
(multimediaRecognizer.js lines 128-135): all blocks, then a final trim. -/
def serializeSegments (segs : List (List Char × List Char)) : List Char :=
  jsTrim (serializeAll segs)

/-- The serialized string after the final trim, computed structurally: only
the last block loses its trailing blank line. -/
def serializeTrimmed : List (List Char × List Char) → List Char
  | [] => []
  | [(n, c)] => '[' :: '@' :: (n ++ ':' :: ']' :: '\n' :: c)
  | (n, c) :: rest => serializeBlock n c ++ serializeTrimmed rest

/-- The raw regex matches the serialized string gives rise to: each content
capture keeps the leading newline, and all but the last keep the trailing
blank line. -/
def rawPairs : List (List Char × List Char) → List (List Char × List Char)
  | [] => []
  | [(n, c)] => [(n, '\n' :: c)]
  | (n, c) :: rest => (n, '\n' :: (c ++ ['\n', '\n'])) :: rawPairs rest

/-- A name a segment round-trips with: nonempty, free of the marker-closing
bracket, and invariant under trim (the parser trims what it captures). -/
def ValidSegName (n : List Char) : Prop :=
  n ≠ [] ∧ ']' ∉ n ∧ jsTrim n = n

/-- A content a segment round-trips with: nonempty, trim-invariant, and not
containing a marker opening. -/
def ValidSegContent (c : List Char) : Prop :=
  c ≠ [] ∧ jsTrim c = c ∧ ¬ (['[', '@'] <:+: c)

instance : DecidablePred ValidSegName := fun n => by
  unfold ValidSegName; infer_instance

instance : DecidablePred ValidSegContent := fun c => by
  unfold ValidSegContent; infer_instance

/-! ## Rendering (mediaDescriptionManager.js lines 195-250) -/

/-- POSIX path.basename (as used for display): the part after the last
slash. -/
def pathBasename (p : List Char) : List Char :=
  (p.reverse.takeWhile (fun c => decide (c ≠ '/'))).reverse

/-- The record fields renderDescription/renderTagOnly consult.  A JS object
field that may be absent/null is an `Option`; the empty string is falsy. -/
structure RenderRecord where
  description : Option (List Char)
  tags : Option (List Char)
deriving DecidableEq

/-- Truthiness of an optional string field. -/
def strFieldTruthy : Option (List Char) → Bool
  | none => false
  | some s => decide (s ≠ [])

/-- The trailing path line: with hideFilePath the file-name form, else the
file-path form (Chinese literals as in the source). -/
def pathLine (filePath : List Char) (hideFilePath : Bool) : List Char :=
  if hideFilePath then '\n' :: ("[文件名: ".data ++ pathBasename filePath ++ "]".data)
  else '\n' :: ("[文件路径: ".data ++ filePath ++ "]".data)

/-- mediaDescriptionManager.renderDescription. -/
def renderDescription (filePath : List Char) (descObj : Option RenderRecord)
    (requestedPresets : List (List Char)) (hideFilePath : Bool) :
    Option (List Char) :=
  match descObj with
  | none => none
  | some o =>
    if strFieldTruthy o.description = false then none
    else
      let segments := parseSegmentedDescription (o.description.getD [])
      if segments = [] then none
      else
        let isAll := requestedPresets = [] ∨
          requestedPresets.any (fun p => decide (p.map Char.toLower = "all".data))
        let renderedParts := segments.filterMap (fun nc =>
          let included := isAll ∨ requestedPresets.any (fun p =>
            let cleanP := match p with
              | '@' :: t => t
              | _ => p
            decide (cleanP.map Char.toLower = nc.1.map Char.toLower))
          if included then some ('[' :: (nc.1 ++ ']' :: '\n' :: nc.2)) else none)
        if renderedParts = [] then none
        else
          let joined := (renderedParts.intersperse "\n\n".data).foldr (· ++ ·) []
          let withPath := joined ++ pathLine filePath hideFilePath
          let tagged :=
            if strFieldTruthy o.tags && decide (jsTrim (o.tags.getD []) ≠ []) then
              withPath ++ '\n' :: ("Tag: ".data ++ jsTrim (o.tags.getD []))
            else withPath
          some tagged

/-- mediaDescriptionManager.renderTagOnly: note that when the record exists
but tags are absent/empty the function returns the empty string, not null. -/
def renderTagOnly (filePath : List Char) (descObj : Option RenderRecord)
    (hideFilePath : Bool) : Option (List Char) :=
  match descObj with
  | none => none
  | some o =>
    if strFieldTruthy o.tags && decide (jsTrim (o.tags.getD []) ≠ []) then
      some (("Tag: ".data ++ jsTrim (o.tags.getD [])) ++ pathLine filePath hideFilePath)
    else some []

/-! ## Sidecar write (mediaDescriptionManager.js lines 109-139)

A JS object is modelled as an insertion-ordered association list from field
names to string values; writeDescription's data flow on it is pure given the
clock value and the outcome of hashing the media file. -/

/-- JS object lookup. -/
def objGet (k : List Char) (o : List (List Char × List Char)) :
    Option (List Char) :=
  (o.find? (fun p => decide (p.1 = k))).map (fun p => p.2)

/-- JS rest-destructuring that removes one key. -/
def objRemove (k : List Char) (o : List (List Char × List Char)) :
    List (List Char × List Char) :=
  o.filter (fun p => decide (p.1 ≠ k))

/-- JS property assignment / spread-override: replace in place or append. -/
def objSet (o : List (List Char × List Char)) (k v : List Char) :
    List (List Char × List Char) :=
  mapSet o k v

/-- The record writeDescription persists, as a function of the caller's
record, the timestamp, and the file-hash outcome (`some h` when the media
file was readable, `none` when not). -/
def writeDescriptionData (descObj : List (List Char × List Char))
    (now : List Char) (fileHashResult : Option (List Char)) :
    List (List Char × List Char) :=
  let rest := objRemove "presetName".data descObj
  let data := objSet rest "updatedAt".data now
  let data :=
    if strFieldTruthy (objGet "createdAt".data data) then data
    else objSet data "createdAt".data now
  match fileHashResult with
  | some h => objSet data "fileHash".data h
  | none => data

/-! ## Content-hash reconciliation (mediaDescriptionManager.js lines 351-441)

The directory is modelled as its listing snapshot: each entry carries its
name, whether it is a regular file, the SHA-256 of its bytes (hashing is the
crypto library, treated as an oracle attribute), and, for sidecar files, the
outcome of reading-and-JSON-parsing it (`none` = unreadable or bad JSON,
`some fh` = parsed with `fh` the optional fileHash field). -/

structure DirEntry where
  name : List Char
  isFile : Bool
  hash : List Char
  descFileHash : Option (Option (List Char))
deriving DecidableEq

def descJsonSuffix : List Char := ".desc.json".data

def endsWithDescJson (n : List Char) : Bool := descJsonSuffix.isSuffixOf n

/-- name.replace(/\.desc\.json$/, ''). -/
def stripDescJson (n : List Char) : List Char :=
  if endsWithDescJson n then n.take (n.length - descJsonSuffix.length) else n

/-- mediaDescriptionManager.shouldIgnore: dotfiles. -/
def shouldIgnore : List Char → Bool
  | '.' :: _ => true
  | _ => false

/-- path.extname on a plain file name: from the last dot, unless that dot is
the first character or there is none. -/
def extname (n : List Char) : List Char :=
  let r := n.reverse.takeWhile (fun c => decide (c ≠ '.'))
  if r.length < n.length ∧ 0 < n.length - 1 - r.length then
    n.drop (n.length - 1 - r.length)
  else []

def MULTIMEDIA_EXTENSIONS : List (List Char) :=
  [".png".data, ".jpg".data, ".jpeg".data, ".gif".data, ".webp".data,
   ".bmp".data, ".svg".data, ".ico".data, ".tiff".data, ".tif".data,
   ".avif".data,
   ".mp4".data, ".avi".data, ".mov".data, ".mkv".data, ".webm".data,
   ".flv".data,
   ".mp3".data, ".wav".data, ".ogg".data, ".flac".data, ".aac".data,
   ".m4a".data,
   ".pdf".data]

/-- mediaDescriptionManager.isMultimediaFile. -/
def isMultimediaFile (n : List Char) : Bool :=
  decide ((extname n).map Char.toLower ∈ MULTIMEDIA_EXTENSIONS)

/-- fs.access within the listing snapshot: any entry with that name. -/
def existsEntry (entries : List DirEntry) (n : List Char) : Bool :=
  entries.any (fun e => decide (e.name = n))

/-- Step 1+2 of reconcileOrphanedDescFiles: sidecar files whose original
file is missing. -/
def orphanDescsOf (entries : List DirEntry) : List DirEntry :=
  (entries.filter (fun e =>
      e.isFile && !shouldIgnore e.name && endsWithDescJson e.name)).filter
    (fun e => !existsEntry entries (stripDescJson e.name))

/-- Step 3: multimedia files that currently have no sidecar. -/
def candidatesOf (entries : List DirEntry) : List DirEntry :=
  entries.filter (fun e =>
    e.isFile && !shouldIgnore e.name && !endsWithDescJson e.name &&
    isMultimediaFile e.name && !existsEntry entries (e.name ++ descJsonSuffix))

/-- The inner candidate scan: hash each remaining candidate in order and
stop at the first equal hash, returning it and the list with it removed. -/
def findFirstMatch (h : List Char) : List DirEntry →
    Option (DirEntry × List DirEntry)
  | [] => none
  | c :: cs =>
    if c.hash = h then some (c, cs)
    else
      match findFirstMatch h cs with
      | none => none
      | some (m, cs') => some (m, c :: cs')

/-- Step 4 of reconcileOrphanedDescFiles: process each orphaned sidecar
against the shrinking candidate list.  Result: (reconciled pairs, orphaned
sidecar names, performed renames (oldSidecarName, newSidecarName)). -/
def reconcileLoop : List DirEntry → List DirEntry →
    List (List Char × List Char) × List (List Char) ×
      List (List Char × List Char)
  | [], _ => ([], [], [])
  | o :: rest, cs =>
    match o.descFileHash with
    | none =>
      let res := reconcileLoop rest cs
      (res.1, o.name :: res.2.1, res.2.2)
    | some fhField =>
      match fhField with
      | none =>
        let res := reconcileLoop rest cs
        (res.1, o.name :: res.2.1, res.2.2)
      | some fh =>
        if fh = [] then
          let res := reconcileLoop rest cs
          (res.1, o.name :: res.2.1, res.2.2)
        else
          match findFirstMatch fh cs with
          | some (m, cs') =>
            let res := reconcileLoop rest cs'
            ((stripDescJson o.name, m.name) :: res.1, res.2.1,
              (o.name, m.name ++ descJsonSuffix) :: res.2.2)
          | none =>
            let res := reconcileLoop rest cs
            (res.1, o.name :: res.2.1, res.2.2)

/-- mediaDescriptionManager.reconcileOrphanedDescFiles over a directory
snapshot. -/
def reconcileOrphanedDescFiles (entries : List DirEntry) :
    List (List Char × List Char) × List (List Char) ×
      List (List Char × List Char) :=
  reconcileLoop (orphanDescsOf entries) (candidatesOf entries)

/-! ## Text codecs shared by the PNG and JPEG embedded-metadata paths -/

/-- UTF-8 encoding of one character (Buffer.from(s, 'utf-8')). -/
def utf8EncodeChar (c : Char) : List Nat :=
  let n := c.toNat
  if n < 0x80 then [n]
  else if n < 0x800 then [0xC0 + n / 64, 0x80 + n % 64]
  else if n < 0x10000 then
    [0xE0 + n / 4096, 0x80 + n / 64 % 64, 0x80 + n % 64]
  else
    [0xF0 + n / 0x40000, 0x80 + n / 4096 % 64, 0x80 + n / 64 % 64,
      0x80 + n % 64]

def utf8Encode : List Char → List Nat
  | [] => []
  | c :: cs => utf8EncodeChar c ++ utf8Encode cs

/-- The replacement character a JS TextDecoder produces on malformed
input. -/
def replChar : Char := '�'

def isUtf8Cont (b : Nat) : Bool := 0x80 ≤ b && b < 0xC0

/-- Buffer.prototype.toString('utf-8'): decode, emitting U+FFFD on
malformed sequences (overlong forms, surrogates and out-of-range values are
malformed).  Fuel bounds the number of bytes left; every step consumes at
least one byte. -/
def utf8DecodeAux : Nat → List Nat → List Char
  | 0, _ => []
  | _ + 1, [] => []
  | fuel + 1, b :: bs =>
    if b < 0x80 then Char.ofNat b :: utf8DecodeAux fuel bs
    else if 0xC2 ≤ b ∧ b < 0xE0 then
      match bs with
      | b1 :: bs1 =>
        if isUtf8Cont b1 then
          Char.ofNat ((b - 0xC0) * 64 + (b1 - 0x80)) :: utf8DecodeAux fuel bs1
        else replChar :: utf8DecodeAux fuel bs
      | [] => [replChar]
    else if 0xE0 ≤ b ∧ b < 0xF0 then
      match bs with
      | b1 :: b2 :: bs2 =>
        if isUtf8Cont b1 && isUtf8Cont b2 &&
            !(b = 0xE0 && b1 < 0xA0) && !(b = 0xED && 0xA0 ≤ b1) then
          Char.ofNat ((b - 0xE0) * 4096 + (b1 - 0x80) * 64 + (b2 - 0x80)) ::
            utf8DecodeAux fuel bs2
        else replChar :: utf8DecodeAux fuel bs
      | _ => replChar :: utf8DecodeAux fuel bs
    else if 0xF0 ≤ b ∧ b < 0xF5 then
      match bs with
      | b1 :: b2 :: b3 :: bs3 =>
        if isUtf8Cont b1 && isUtf8Cont b2 && isUtf8Cont b3 &&
            !(b = 0xF0 && b1 < 0x90) && !(b = 0xF4 && 0x90 ≤ b1) then
          Char.ofNat ((b - 0xF0) * 0x40000 + (b1 - 0x80) * 4096 +
            (b2 - 0x80) * 64 + (b3 - 0x80)) :: utf8DecodeAux fuel bs3
        else replChar :: utf8DecodeAux fuel bs
      | _ => replChar :: utf8DecodeAux fuel bs
    else replChar :: utf8DecodeAux fuel bs

def utf8Decode (bs : List Nat) : List Char := utf8DecodeAux bs.length bs

/-- Buffer.prototype.toString('latin1' / 'binary'): byte to same code
point. -/
def latin1Decode (bs : List Nat) : List Char := bs.map Char.ofNat

/-- Buffer.from(s, 'latin1') (Node's 'ascii' encoding is the same): code
point masked to a byte. -/
def latin1Encode (s : List Char) : List Nat := s.map (fun c => c.toNat % 256)

/-- Buffer.prototype.toString('ascii'): Node strips the high bit of every
byte. -/
def asciiDecode (bs : List Nat) : List Char := bs.map (fun b => Char.ofNat (b % 128))

/-- Big-endian 16-bit bytes (Buffer.writeUInt16BE). -/
def be16 (n : Nat) : List Nat := [n / 256 % 256, n % 256]

/-- Big-endian 32-bit bytes (Buffer.writeUInt32BE). -/
def be32 (n : Nat) : List Nat :=
  [n / 0x1000000 % 256, n / 0x10000 % 256, n / 0x100 % 256, n % 256]

/-- Buffer.readUInt32BE given the four bytes. -/
def readBE32 (a b c d : Nat) : Nat := ((a * 256 + b) * 256 + c) * 256 + d

/-- Buffer.indexOf(0): split at the first NUL byte. -/
def splitAtNull : List Nat → Option (List Nat × List Nat)
  | [] => none
  | b :: rest =>
    if b = 0 then some ([], rest)
    else
      match splitAtNull rest with
      | some (pre, post) => some (b :: pre, post)
      | none => none

def listJoin : List (List Nat) → List Nat
  | [] => []
  | x :: xs => x ++ listJoin xs

/-! ## PNG codec (mediaDescriptionManager.js lines 443-710) -/

def pngSignature : List Nat := [0x89, 0x50, 0x4E, 0x47, 0x0D, 0x0A, 0x1A, 0x0A]

/-- The chunk walk of _parsePngChunks after the signature: 4-byte big-endian
length, 4-byte type, data, 4-byte CRC; stop silently when a chunk would
overrun the buffer.  Fuel bounds the number of bytes left. -/
def parsePngChunksAux : Nat → List Nat → List (List Nat × List Nat)
  | 0, _ => []
  | fuel + 1, l =>
    match l with
    | a :: b :: c :: d :: t0 :: t1 :: t2 :: t3 :: rest =>
      let len := readBE32 a b c d
      if 12 + len ≤ l.length then
        ([t0, t1, t2, t3], rest.take len) ::
          parsePngChunksAux fuel (rest.drop (len + 4))
      else []
    | _ => []

/-- mediaDescriptionManager._parsePngChunks (throwing = none). -/
def parsePngChunks (buffer : List Nat) : Option (List (List Nat × List Nat)) :=
  if buffer.take 8 = pngSignature then
    some (parsePngChunksAux (buffer.length + 1) (buffer.drop 8))
  else none

/-- mediaDescriptionManager._readTEXtChunk. -/
def readTEXtChunk (data : List Nat) : Option (List Char × List Char) :=
  match splitAtNull data with
  | none => none
  | some (kw, text) => some (latin1Decode kw, latin1Decode text)

/-- mediaDescriptionManager._readITXtChunk; `inflate` is the zlib oracle
(`none` = inflateSync threw, falling back to the raw bytes). -/
def readITXtChunk (inflate : List Nat → Option (List Nat)) (data : List Nat) :
    Option (List Char × List Char) :=
  match splitAtNull data with
  | none => none
  | some (kw, rest1) =>
    match rest1 with
    | cf :: cm :: rest2 =>
      (match splitAtNull rest2 with
       | none => none
       | some (_, rest3) =>
         match splitAtNull rest3 with
         | none => none
         | some (_, rest4) =>
           let textBytes :=
             if cf = 1 ∧ cm = 0 then
               match inflate rest4 with
               | some t => t
               | none => rest4
             else rest4
           some (utf8Decode kw, utf8Decode textBytes))
    | _ => none

def tEXtName : List Char := "tEXt".data
def iTXtName : List Char := "iTXt".data

/-- What one chunk contributes to _readPngEmbeddedMetadata's scan: the text
if this chunk stops the scan, none if the scan continues past it. -/
def pngChunkYield (inflate : List Nat → Option (List Nat))
    (chunk : List Nat × List Nat) : Option (List Char) :=
  let parsed :=
    if asciiDecode chunk.1 = tEXtName then readTEXtChunk chunk.2
    else if asciiDecode chunk.1 = iTXtName then readITXtChunk inflate chunk.2
    else none
  match parsed with
  | some (kw, text) =>
    if (kw = "Description".data ∨ kw = "Comment".data) ∧ text ≠ [] then
      some text
    else none
  | none => none

def readPngDescAux (inflate : List Nat → Option (List Nat)) :
    List (List Nat × List Nat) → Option (List Char)
  | [] => none
  | chunk :: rest =>
    match pngChunkYield inflate chunk with
    | some text => some text
    | none => readPngDescAux inflate rest

/-- The description text _readPngEmbeddedMetadata returns (the record also
carries a provenance label derived by JSON-probing this same text; only the
text projection is modelled). -/
def readPngEmbeddedDescription (inflate : List Nat → Option (List Nat))
    (buffer : List Nat) : Option (List Char) :=
  match parsePngChunks buffer with
  | none => none
  | some chunks => readPngDescAux inflate chunks

/-- One round of the CRC32 bit loop. -/
def crc32Step (c : Nat) : Nat :=
  if c % 2 = 1 then Nat.xor 0xEDB88320 (c / 2) else c / 2

/-- One entry of the CRC32 lookup table. -/
def crc32TableEntry (n : Nat) : Nat :=
  (List.range 8).foldl (fun c _ => crc32Step c) n

def crc32Aux : List Nat → Nat → Nat
  | [], crc => crc
  | b :: rest, crc =>
    crc32Aux rest (Nat.xor (crc32TableEntry (Nat.land (Nat.xor crc b) 0xFF)) (crc / 256))

/-- mediaDescriptionManager._crc32. -/
def crc32 (buffer : List Nat) : Nat :=
  Nat.xor (crc32Aux buffer 0xFFFFFFFF) 0xFFFFFFFF

/-- mediaDescriptionManager._buildITXtChunkData: keyword, NUL, flag+method
0 0 (uncompressed), empty language tag, NUL, empty translated keyword, NUL,
UTF-8 text. -/
def buildITXtChunkData (keyword text : List Char) : List Nat :=
  utf8Encode keyword ++ [0] ++ [0, 0] ++ [0] ++ [0] ++ utf8Encode text

/-- mediaDescriptionManager._buildPngChunk. -/
def buildPngChunk (ty : List Char) (data : List Nat) : List Nat :=
  be32 data.length ++ latin1Encode ty ++ data ++
    be32 (crc32 (latin1Encode ty ++ data))

/-- The replacement test of _writePngEmbeddedMetadata on one chunk: is it a
tEXt/iTXt chunk whose keyword (bytes before the first NUL, UTF-8 decoded)
is exactly Description? -/
def isDescriptionChunkData (ty data : List Nat) : Bool :=
  (asciiDecode ty = tEXtName || asciiDecode ty = iTXtName) &&
  (match splitAtNull data with
   | some (kw, _) => decide (utf8Decode kw = "Description".data)
   | none => false)

/-- The rebuild walk of _writePngEmbeddedMetadata: copy each chunk slice,
replacing the first Description tEXt/iTXt chunk with the new chunk; a
truncated trailing chunk is dropped.  Returns the parts after the signature
and whether a replacement happened. -/
def pngRebuildAux (newChunk : List Nat) :
    Nat → List Nat → Bool → List (List Nat) × Bool
  | 0, _, replaced => ([], replaced)
  | fuel + 1, l, replaced =>
    match l with
    | a :: b :: c :: d :: t0 :: t1 :: t2 :: t3 :: rest =>
      let len := readBE32 a b c d
      if 12 + len ≤ l.length then
        if isDescriptionChunkData [t0, t1, t2, t3] (rest.take len) && !replaced then
          let res := pngRebuildAux newChunk fuel (rest.drop (len + 4)) true
          (newChunk :: res.1, res.2)
        else
          let res := pngRebuildAux newChunk fuel (rest.drop (len + 4)) replaced
          (l.take (12 + len) :: res.1, res.2)
      else ([], replaced)
    | _ => ([], replaced)

/-- mediaDescriptionManager._writePngEmbeddedMetadata as a buffer
transformer: none when nothing is written (bad signature or blank text);
when no Description chunk was found the new chunk is spliced in at position
2 of the parts array (right after the first chunk, expected to be IHDR). -/
def writePngEmbeddedMetadata (text : List Char) (buffer : List Nat) :
    Option (List Nat) :=
  if buffer.take 8 = pngSignature then
    if jsTrim text = [] then none
    else
      let newChunk := buildPngChunk iTXtName (buildITXtChunkData "Description".data text)
      let res := pngRebuildAux newChunk (buffer.length + 1) (buffer.drop 8) false
      if res.2 then some (pngSignature ++ listJoin res.1)
      else
        match res.1 with
        | p1 :: ps => some (pngSignature ++ p1 ++ newChunk ++ listJoin ps)
        | [] => some (pngSignature ++ newChunk)
  else none

/-- Chunk-level view of a PNG file used to state the frame theorems: type
bytes, data bytes, and the stored (not recomputed) CRC bytes. -/
structure PngChunk where
  ctype : List Nat
  data : List Nat
  crc : List Nat
deriving DecidableEq

def encodePngChunk (c : PngChunk) : List Nat :=
  be32 c.data.length ++ c.ctype ++ c.data ++ c.crc

/-- Structural well-formedness of a chunk list underlying a byte buffer. -/
def PngChunkWF (c : PngChunk) : Prop :=
  c.ctype.length = 4 ∧ c.crc.length = 4 ∧ c.data.length < 2 ^ 32

instance : DecidablePred PngChunkWF := fun c => by
  unfold PngChunkWF; infer_instance

def isDescriptionChunk (c : PngChunk) : Bool :=
  isDescriptionChunkData c.ctype c.data

def pngChunkBytesYield (inflate : List Nat → Option (List Nat))
    (c : PngChunk) : Option (List Char) :=
  pngChunkYield inflate (c.ctype, c.data)

/-! ## JPEG codec (mediaDescriptionManager.js lines 712-1021) -/

/-- The marker walk of _parseJpegMarkers after SOI.  Fuel bounds the bytes
left; every step consumes at least one byte or stops. -/
def parseJpegMarkersAux : Nat → List Nat → List (Nat × List Nat)
  | 0, _ => []
  | fuel + 1, l =>
    match l with
    | b0 :: b1 :: rest =>
      if b0 ≠ 0xFF then parseJpegMarkersAux fuel (b1 :: rest)
      else if b1 = 0xFF then parseJpegMarkersAux fuel (b1 :: rest)
      else if b1 = 0xD8 ∨ b1 = 0xD9 ∨ (0xD0 ≤ b1 ∧ b1 ≤ 0xD7) ∨ b1 = 0x01 then
        if b1 = 0xD9 then [(b1, [])]
        else (b1, []) :: parseJpegMarkersAux fuel rest
      else if b1 = 0xDA then [(0xDA, [])]
      else
        match rest with
        | s0 :: s1 :: rest2 =>
          let segLength := s0 * 256 + s1
          if 2 ≤ segLength ∧ segLength ≤ rest.length then
            (b1, rest2.take (segLength - 2)) ::
              parseJpegMarkersAux fuel (rest.drop segLength)
          else []
        | _ => []
    | _ => []

/-- mediaDescriptionManager._parseJpegMarkers (throwing = none).  The SOS
pseudo-marker is recorded with empty data, as in the source. -/
def parseJpegMarkers (buffer : List Nat) : Option (List (Nat × List Nat)) :=
  match buffer with
  | 0xFF :: 0xD8 :: rest => some (parseJpegMarkersAux (buffer.length + 1) rest)
  | _ => none

/-- mediaDescriptionManager._readJpegComment: first COM marker with
nonempty data, UTF-8 decoded and trimmed. -/
def readJpegComment : List (Nat × List Nat) → Option (List Char)
  | [] => none
  | (m, data) :: rest =>
    if m = 0xFE ∧ data ≠ [] then some (jsTrim (utf8Decode data))
    else readJpegComment rest

/-- Byte of a buffer at an index (reads are guarded by explicit bounds
checks in the source, so the default is never observable). -/
def byteAt (l : List Nat) (i : Nat) : Nat := l.getD i 0

def readU16At (isLE : Bool) (l : List Nat) (off : Nat) : Nat :=
  if isLE then byteAt l off + 256 * byteAt l (off + 1)
  else 256 * byteAt l off + byteAt l (off + 1)

def readU32At (isLE : Bool) (l : List Nat) (off : Nat) : Nat :=
  if isLE then
    byteAt l off + 256 * byteAt l (off + 1) + 65536 * byteAt l (off + 2) +
      16777216 * byteAt l (off + 3)
  else
    16777216 * byteAt l off + 65536 * byteAt l (off + 1) +
      256 * byteAt l (off + 2) + byteAt l (off + 3)

/-- The IFD0 entry scan of _readExifImageDescription: 12-byte entries, stop
at the first with tag 0x010E and ASCII type; its value is inline when
count is at most 4, else at the stored offset; strip one trailing NUL and
trim; an empty result is null. -/
def exifEntryLoop (tiff : List Nat) (isLE : Bool) (ifd0 : Nat) :
    Nat → Nat → Option (List Char)
  | 0, _ => none
  | rem + 1, i =>
    let entryOffset := ifd0 + 2 + i * 12
    if tiff.length < entryOffset + 12 then none
    else
      let tag := readU16At isLE tiff entryOffset
      let ty := readU16At isLE tiff (entryOffset + 2)
      let count := readU32At isLE tiff (entryOffset + 4)
      let valueOffset := readU32At isLE tiff (entryOffset + 8)
      if tag = 0x010E ∧ ty = 2 then
        let strOffset := if count ≤ 4 then entryOffset + 8 else valueOffset
        if tiff.length < strOffset + count then none
        else
          let str := asciiDecode ((tiff.drop strOffset).take count)
          let str2 := if str.getLast? = some '\x00' then str.dropLast else str
          if jsTrim str2 = [] then none else some (jsTrim str2)
      else exifEntryLoop tiff isLE ifd0 rem (i + 1)

/-- mediaDescriptionManager._readExifImageDescription. -/
def readExifImageDescription (app1Data : List Nat) : Option (List Char) :=
  if app1Data.length < 14 then none
  else if latin1Decode (app1Data.take 6) ≠ "Exif\x00\x00".data then none
  else
    let tiff := app1Data.drop 6
    if tiff.length < 8 then none
    else
      let isLE := decide (asciiDecode (tiff.take 2) = "II".data)
      if readU16At isLE tiff 2 ≠ 42 then none
      else
        let ifd0 := readU32At isLE tiff 4
        if tiff.length < ifd0 + 2 then none
        else
          let entryCount := readU16At isLE tiff ifd0
          exifEntryLoop tiff isLE ifd0 entryCount 0

/-- The APP1 fallback scan of _readJpegEmbeddedMetadata. -/
def jpegExifFallback : List (Nat × List Nat) → Option (List Char)
  | [] => none
  | (m, data) :: rest =>
    if m = 0xE1 ∧ 6 < data.length then
      match readExifImageDescription data with
      | some desc => if desc = [] then jpegExifFallback rest else some desc
      | none => jpegExifFallback rest
    else jpegExifFallback rest

/-- The description text _readJpegEmbeddedMetadata returns (as with PNG,
only the text projection of the record is modelled). -/
def readJpegEmbeddedDescription (buffer : List Nat) : Option (List Char) :=
  match parseJpegMarkers buffer with
  | none => none
  | some markers =>
    match readJpegComment markers with
    | some comment =>
      if comment = [] then jpegExifFallback markers else some comment
    | none => jpegExifFallback markers

/-- The COM segment _writeJpegEmbeddedMetadata builds: 0xFF 0xFE, big-endian
length including itself, then the UTF-8 text. -/
def buildComMarker (textBuf : List Nat) : List Nat :=
  0xFF :: 0xFE :: (be16 (textBuf.length + 2) ++ textBuf)

/-- The rebuild walk of _writeJpegEmbeddedMetadata from offset 2: pass
markers through, dropping every existing COM; the new COM takes the place of
the first dropped COM, or sits immediately before SOS.  Returns the parts
after SOI and whether the new COM was placed. -/
def jpegRebuildAux (com : List Nat) :
    Nat → List Nat → Bool → List (List Nat) × Bool
  | 0, _, replaced => ([], replaced)
  | fuel + 1, l, replaced =>
    match l with
    | b0 :: b1 :: rest =>
      if b0 ≠ 0xFF then ([l], replaced)
      else if b1 = 0xFF then jpegRebuildAux com fuel (b1 :: rest) replaced
      else if b1 = 0xD8 then jpegRebuildAux com fuel rest replaced
      else if b1 = 0xD9 then ([l], replaced)
      else if (0xD0 ≤ b1 ∧ b1 ≤ 0xD7) ∨ b1 = 0x01 then
        let res := jpegRebuildAux com fuel rest replaced
        ([b0, b1] :: res.1, res.2)
      else if b1 = 0xDA then
        if replaced then ([l], replaced) else ([com, l], true)
      else
        match rest with
        | s0 :: s1 :: _ =>
          let segLength := s0 * 256 + s1
          if 2 ≤ segLength ∧ segLength ≤ rest.length then
            if b1 = 0xFE then
              if replaced then jpegRebuildAux com fuel (rest.drop segLength) replaced
              else
                let res := jpegRebuildAux com fuel (rest.drop segLength) true
                (com :: res.1, res.2)
            else
              let res := jpegRebuildAux com fuel (rest.drop segLength) replaced
              (l.take (2 + segLength) :: res.1, res.2)
          else ([l], replaced)
        | _ => ([l], replaced)
    | _ => ([], replaced)

/-- mediaDescriptionManager._writeJpegEmbeddedMetadata as a buffer
transformer: none when nothing is written (bad SOI, blank text, or COM
length over 65535); when the walk never placed the COM it is spliced in
right after SOI. -/
def writeJpegEmbeddedMetadata (text : List Char) (buffer : List Nat) :
    Option (List Nat) :=
  match buffer with
  | 0xFF :: 0xD8 :: rest =>
    if jsTrim text = [] then none
    else
      let textBuf := utf8Encode text
      if 65535 < textBuf.length + 2 then none
      else
        let com := buildComMarker textBuf
        let res := jpegRebuildAux com (buffer.length + 1) rest false
        if res.2 then some (0xFF :: 0xD8 :: listJoin res.1)
        else some (0xFF :: 0xD8 :: (com ++ listJoin res.1))
  | _ => none

/-- Marker-segment view of the structured part of a JPEG stream, used to
state the frame theorems. -/
inductive JSeg where
  | standalone (m : Nat) : JSeg
  | seg (m : Nat) (payload : List Nat) : JSeg
deriving DecidableEq

def encodeJSeg : JSeg → List Nat
  | .standalone m => [0xFF, m]
  | .seg m payload => 0xFF :: m :: (be16 (payload.length + 2) ++ payload)

/-- Well-formedness of one marker segment in the structured region before
SOS. -/
def JSegWF : JSeg → Prop
  | .standalone m => (0xD0 ≤ m ∧ m ≤ 0xD7) ∨ m = 0x01
  | .seg m payload =>
    m ≠ 0xFF ∧ m ≠ 0xD8 ∧ m ≠ 0xD9 ∧ m ≠ 0xDA ∧ m ≠ 0x01 ∧
      ¬ (0xD0 ≤ m ∧ m ≤ 0xD7) ∧ payload.length + 2 ≤ 65535

instance : DecidablePred JSegWF := fun s => by
  unfold JSegWF; cases s <;> infer_instance

def isComSeg : JSeg → Bool
  | .seg m _ => decide (m = 0xFE)
  | .standalone _ => false

/-- The marker record the parser produces for one segment. -/
def jsegMarker : JSeg → Nat × List Nat
  | .standalone m => (m, [])
  | .seg m payload => (m, payload)

/-! # Theorems -/

/-! ## Generic helper lemmas -/

theorem charToNat_ofNat {n : Nat} (h : n.isValidChar) : (Char.ofNat n).toNat = n := by
  simp only [Char.ofNat, h, dif_pos, Char.toNat, Char.ofNatAux]
  rfl

theorem length_dropWhile_le (p : α → Bool) (l : List α) :
    (l.dropWhile p).length ≤ l.length := by
  induction l with
  | nil => simp
  | cons x xs ih =>
    by_cases h : p x
    · simp only [List.dropWhile_cons, h, if_true]
      exact Nat.le_trans ih (Nat.le_succ _)
    · simp [List.dropWhile_cons, h]

theorem dropWhile_eq_self_of_length (p : α → Bool) (l : List α)
    (h : (l.dropWhile p).length = l.length) : l.dropWhile p = l := by
  induction l with
  | nil => simp
  | cons x xs ih =>
    by_cases hx : p x
    · exfalso
      simp only [List.dropWhile_cons, hx, if_true] at h
      have := length_dropWhile_le p xs
      simp at h
      omega
    · simp [List.dropWhile_cons, hx]

theorem length_dropTrail_le (l : List Char) : (dropTrail l).length ≤ l.length := by
  unfold dropTrail
  simpa using length_dropWhile_le isJsWhitespace l.reverse

theorem jsTrim_eq_self_parts {c : List Char} (h : jsTrim c = c) :
    c.dropWhile isJsWhitespace = c ∧ dropTrail c = c := by
  unfold jsTrim at h
  have h1 : (c.dropWhile isJsWhitespace).length ≤ c.length :=
    length_dropWhile_le _ _
  have h2 : (dropTrail (c.dropWhile isJsWhitespace)).length ≤
      (c.dropWhile isJsWhitespace).length := length_dropTrail_le _
  have hlen : (c.dropWhile isJsWhitespace).length = c.length := by
    have := congrArg List.length h
    omega
  have hdw : c.dropWhile isJsWhitespace = c :=
    dropWhile_eq_self_of_length _ _ hlen
  rw [hdw] at h
  exact ⟨hdw, h⟩

theorem dropWhile_reverse_eq_of_dropTrail {c : List Char} (h : dropTrail c = c) :
    c.reverse.dropWhile isJsWhitespace = c.reverse := by
  unfold dropTrail at h
  have := congrArg List.reverse h
  simpa using this

theorem head_not_ws_of_dropWhile {x : Char} {xs : List Char}
    (h : (x :: xs).dropWhile isJsWhitespace = x :: xs) :
    isJsWhitespace x = false := by
  by_cases hx : isJsWhitespace x
  · exfalso
    simp only [List.dropWhile_cons, hx, if_true] at h
    have := congrArg List.length h
    have := length_dropWhile_le isJsWhitespace xs
    simp at *
    omega
  · simpa using hx

/-- dropWhile is the identity on a list whose head is not whitespace. -/
theorem dropWhile_cons_not_ws {x : Char} (xs : List Char)
    (hx : isJsWhitespace x = false) :
    (x :: xs).dropWhile isJsWhitespace = x :: xs := by
  simp [List.dropWhile_cons, hx]

theorem dropTrail_append_nonblank (xs ys : List Char)
    (h : dropTrail ys ≠ []) : dropTrail (xs ++ ys) = xs ++ dropTrail ys := by
  unfold dropTrail at *
  rw [List.reverse_append, List.dropWhile_append]
  have hne : (ys.reverse.dropWhile isJsWhitespace).isEmpty = false := by
    cases hys : ys.reverse.dropWhile isJsWhitespace with
    | nil => exfalso; apply h; simp [hys]
    | cons a l => simp
  rw [hne]
  simp

theorem dropTrail_append_ws (xs : List Char) {c : List Char}
    (hc : dropTrail c = c) (hne : c ≠ []) :
    dropTrail (c ++ xs) = c ++ dropTrail xs := by
  by_cases hx : dropTrail xs = []
  · -- all of xs is whitespace; the trailing drop eats xs and stops at c's end
    unfold dropTrail at *
    rw [List.reverse_append, List.dropWhile_append]
    have : (xs.reverse.dropWhile isJsWhitespace) = [] := by
      have := congrArg List.reverse hx
      simpa using this
    rw [this]
    simp only [List.isEmpty_nil, if_true]
    rw [dropWhile_reverse_eq_of_dropTrail hc]
    simp [hx]
  · rw [dropTrail_append_nonblank c xs hx]

theorem dropTrail_double_newline {c : List Char}
    (hc : dropTrail c = c) (hne : c ≠ []) :
    dropTrail (c ++ ['\n', '\n']) = c := by
  rw [dropTrail_append_ws _ hc hne]
  simp [dropTrail, List.dropWhile, isJsWhitespace]

theorem jsTrim_raw_content_mid {c : List Char}
    (h : jsTrim c = c) (hne : c ≠ []) :
    jsTrim ('\n' :: (c ++ ['\n', '\n'])) = c := by
  obtain ⟨hdw, hdt⟩ := jsTrim_eq_self_parts h
  unfold jsTrim
  have : ('\n' :: (c ++ ['\n', '\n'])).dropWhile isJsWhitespace =
      (c ++ ['\n', '\n']).dropWhile isJsWhitespace := by
    simp [List.dropWhile_cons, isJsWhitespace]
  rw [this]
  obtain ⟨x, xs, rfl⟩ : ∃ x xs, c = x :: xs := by
    cases c with
    | nil => exact absurd rfl hne
    | cons x xs => exact ⟨x, xs, rfl⟩
  have hx := head_not_ws_of_dropWhile hdw
  rw [List.cons_append, dropWhile_cons_not_ws _ hx, ← List.cons_append]
  exact dropTrail_double_newline hdt hne

theorem jsTrim_raw_content_last {c : List Char}
    (h : jsTrim c = c) (hne : c ≠ []) :
    jsTrim ('\n' :: c) = c := by
  obtain ⟨hdw, hdt⟩ := jsTrim_eq_self_parts h
  unfold jsTrim
  have : ('\n' :: c).dropWhile isJsWhitespace = c.dropWhile isJsWhitespace := by
    simp [List.dropWhile_cons, isJsWhitespace]
  rw [this, hdw, hdt]

/-! ## Map/object helper lemmas -/

theorem mapSet_mem {p : List Char × List Char}
    {acc : List (List Char × List Char)} {k v : List Char}
    (h : p ∈ mapSet acc k v) : p = (k, v) ∨ p ∈ acc := by
  unfold mapSet at h
  split at h
  · obtain ⟨q, hq, hfq⟩ := List.mem_map.mp h
    by_cases hqk : q.1 = k
    · simp only [hqk, if_true] at hfq
      exact Or.inl hfq.symm
    · simp only [hqk, if_false] at hfq
      exact Or.inr (hfq ▸ hq)
  · rcases List.mem_append.mp h with h' | h'
    · exact Or.inr h'
    · simp at h'
      exact Or.inl (by simp [h'])

theorem mapSet_append_of_not_mem {acc : List (List Char × List Char)}
    {k : List Char} (v : List Char) (h : ∀ p ∈ acc, p.1 ≠ k) :
    mapSet acc k v = acc ++ [(k, v)] := by
  unfold mapSet
  have : acc.any (fun p => decide (p.1 = k)) = false := by
    simp only [List.any_eq_false, decide_eq_true_eq]
    exact h
  simp [this]

theorem parse_fold_content_ne_nil (ms : List (List Char × List Char)) :
    ∀ acc, (∀ p ∈ acc, p.2 ≠ []) →
    ∀ p ∈ ms.foldl (fun acc nc =>
        if jsTrim nc.2 = [] then acc
        else mapSet acc (jsTrim nc.1) (jsTrim nc.2)) acc, p.2 ≠ [] := by
  induction ms with
  | nil => intro acc hacc p hp; exact hacc p hp
  | cons nc ms ih =>
    intro acc hacc p hp
    simp only [List.foldl_cons] at hp
    refine ih _ ?_ p hp
    intro q hq
    by_cases hc : jsTrim nc.2 = []
    · simp only [hc, if_pos rfl] at hq
      exact hacc q hq
    · simp only [if_neg hc] at hq
      rcases mapSet_mem hq with h | h
      · rw [h]; exact hc
      · exact hacc q h

/-! ## Claim C10 -/

/-- C10: parseSegmentedDescription discards every segment whose content is
empty after trimming; a non-empty description consisting only of markers,
such as the string of the two bare markers A and B, parses to zero
segments, and renderDescription returns null on a record holding it even
though the description string itself is non-empty. -/
theorem c10_empty_contents_discarded :
    (∀ s : List Char, ∀ p ∈ parseSegmentedDescription s, p.2 ≠ []) ∧
    parseSegmentedDescription "[@A:][@B:]".data = [] ∧
    "[@A:][@B:]".data ≠ [] ∧
    renderDescription "f".data (some ⟨some "[@A:][@B:]".data, none⟩) [] false
      = none := by
  refine ⟨?_, by decide, by decide, by decide⟩
  intro s p hp
  by_cases hs : s = []
  · simp [parseSegmentedDescription, hs] at hp
  · by_cases hms : parseRawMatches s = []
    · by_cases ht : jsTrim s = []
      · simp [parseSegmentedDescription, hs, hms, ht] at hp
      · simp [parseSegmentedDescription, hs, hms, ht] at hp
        rw [hp]
        exact ht
    · simp only [parseSegmentedDescription, if_neg hs, if_neg hms] at hp
      exact parse_fold_content_ne_nil _ [] (by simp) p hp

theorem c10_witness :
    ("A".data, "hi".data) ∈ parseSegmentedDescription "[@A:]\nhi".data ∧
    ("A".data, "hi".data).2 ≠ [] :=
  ⟨by decide, c10_empty_contents_discarded.1 "[@A:]\nhi".data _ (by decide)⟩

/-! ## Claim C9

The claim says renderTagOnly returns null when tags are absent/empty/
whitespace-only.  The source (lines 238-250) initializes the result to the
empty string and returns it unconditionally when the record is non-null, so
the falsy no-tags result is the empty string, not null; null is returned
only when the record itself is null.  The positive half of the claim holds
as stated. -/

/-- C9 counterexample: for a record present but without tags, renderTagOnly
returns the empty string, not null. -/
theorem c9_counterexample :
    renderTagOnly "f".data (some ⟨none, none⟩) false = some [] ∧
    renderTagOnly "f".data (some ⟨none, none⟩) false ≠ none := by
  exact ⟨by decide, by decide⟩

/-- C9 (amended): renderTagOnly returns the empty string (a falsy value,
but not null) when the record exists and its tags are absent, empty or
whitespace-only; it returns null only when the record itself is null; and
when tags are present it returns exactly the Tag line followed by the
file-path line (file-name line when hideFilePath is set). -/
theorem c9_renderTagOnly (filePath : List Char) (o : RenderRecord)
    (hide : Bool) :
    (jsTrim (o.tags.getD []) = [] →
      renderTagOnly filePath (some o) hide = some []) ∧
    (∀ t, o.tags = some t → jsTrim t ≠ [] →
      renderTagOnly filePath (some o) hide =
        some (("Tag: ".data ++ jsTrim t) ++ pathLine filePath hide)) ∧
    renderTagOnly filePath none hide = none := by
  refine ⟨?_, ?_, rfl⟩
  · intro ht
    unfold renderTagOnly
    have hcond : (strFieldTruthy o.tags && decide (jsTrim (o.tags.getD []) ≠ [])) = false := by
      simp [ht]
    simp [hcond]
    intro _
    exact ht
  · intro t hteq htne
    unfold renderTagOnly
    have htr : strFieldTruthy o.tags = true := by
      rw [hteq]
      unfold strFieldTruthy
      have : t ≠ [] := by
        intro h
        apply htne
        rw [h]
        rfl
      simpa using this
    have hcond : (strFieldTruthy o.tags && decide (jsTrim (o.tags.getD []) ≠ [])) = true := by
      rw [htr, hteq]
      simpa using htne
    simp [hcond, hteq]
    exact ⟨hteq ▸ htr, htne⟩

theorem c9_witness :
    renderTagOnly "d/f.png".data (some ⟨none, some " x ".data⟩) false =
      some (("Tag: ".data ++ jsTrim " x ".data) ++ pathLine "d/f.png".data false) :=
  (c9_renderTagOnly "d/f.png".data ⟨none, some " x ".data⟩ false).2.1
    " x ".data rfl (by decide)

/-! ## Claim C8

writeDescription (lines 109-139) builds the persisted record from the
caller-supplied object alone: it never reads the existing sidecar, so a
field of the existing record the caller did not supply is dropped, not
preserved.  (Callers such as recognizeAndDescribe preserve fields by
spreading the freshly-read record into what they pass.)  The rest of the
claim — presetName stripped, updatedAt set, createdAt defaulted only when
absent, supplied fields kept — holds of the data flow. -/

theorem objGet_find_map_replace (o : List (List Char × List Char))
    (k v : List Char) (h : o.any (fun p => decide (p.1 = k)) = true) :
    (o.map (fun p => if p.1 = k then (k, v) else p)).find?
      (fun p => decide (p.1 = k)) = some (k, v) := by
  induction o with
  | nil => simp at h
  | cons p o' ih =>
    by_cases hp : p.1 = k
    · simp [List.find?, hp]
    · simp only [List.any_cons, Bool.or_eq_true, decide_eq_true_eq] at h
      rcases h with h | h
      · exact absurd h hp
      · simp only [List.map_cons, if_neg hp, List.find?]
        rw [show (decide (p.1 = k)) = false by simpa using hp]
        exact ih h

theorem objGet_find_map_other (o : List (List Char × List Char))
    (k k' v : List Char) (hkk : k ≠ k') :
    (o.map (fun p => if p.1 = k' then (k', v) else p)).find?
      (fun p => decide (p.1 = k)) = o.find? (fun p => decide (p.1 = k)) := by
  induction o with
  | nil => simp
  | cons p o' ih =>
    by_cases hp : p.1 = k'
    · simp only [List.map_cons, if_pos hp, List.find?]
      rw [show (decide ((k', v).1 = k)) = false by simp [Ne.symm hkk]]
      rw [show (decide (p.1 = k)) = false by simp [hp, Ne.symm hkk]]
      exact ih
    · simp only [List.map_cons, if_neg hp, List.find?]
      cases hd : decide (p.1 = k) <;> simp [ih]

theorem objGet_objSet_same (o : List (List Char × List Char)) (k v : List Char) :
    objGet k (objSet o k v) = some v := by
  unfold objSet mapSet objGet
  by_cases h : o.any (fun p => decide (p.1 = k)) = true
  · rw [if_pos h, objGet_find_map_replace o k v h]
    rfl
  · rw [if_neg h]
    have hall : ∀ p ∈ o, ¬ (p.1 = k) := by
      intro p hp
      simp only [List.any_eq_true, not_exists, not_and] at h
      intro he
      exact h p hp (by simpa using he)
    induction o with
    | nil => simp [List.find?]
    | cons p o' ih =>
      simp only [List.cons_append, List.find?]
      rw [show (decide (p.1 = k)) = false by simpa using hall p (by simp)]
      exact ih (by simp only [List.any_cons] at h; intro hx; apply h; simp [hx])
        (fun q hq => hall q (by simp [hq]))

theorem objGet_objSet_other (o : List (List Char × List Char))
    (k k' v : List Char) (hkk : k ≠ k') :
    objGet k (objSet o k' v) = objGet k o := by
  unfold objSet mapSet objGet
  by_cases h : o.any (fun p => decide (p.1 = k')) = true
  · rw [if_pos h, objGet_find_map_other o k k' v hkk]
  · rw [if_neg h]
    induction o with
    | nil => simp [List.find?, Ne.symm hkk]
    | cons p o' ih =>
      simp only [List.cons_append, List.find?]
      cases hd : decide (p.1 = k)
      · exact ih (by simp only [List.any_cons] at h; intro hx; apply h; simp [hx])
      · rfl

theorem objGet_objRemove_same (o : List (List Char × List Char)) (k : List Char) :
    objGet k (objRemove k o) = none := by
  unfold objRemove objGet
  induction o with
  | nil => simp
  | cons p o' ih =>
    by_cases hp : p.1 = k
    · simpa [List.filter, hp] using ih
    · simp only [List.filter]
      rw [show (decide (p.1 ≠ k)) = true by simpa using hp]
      simp only [List.find?]
      rw [show (decide (p.1 = k)) = false by simpa using hp]
      exact ih

theorem objGet_objRemove_other (o : List (List Char × List Char))
    (k k' : List Char) (hkk : k ≠ k') :
    objGet k (objRemove k' o) = objGet k o := by
  unfold objRemove objGet
  induction o with
  | nil => simp
  | cons p o' ih =>
    by_cases hp : p.1 = k'
    · simp only [List.filter]
      rw [show (decide (p.1 ≠ k')) = false by simpa using hp]
      simp only [List.find?]
      rw [show (decide (p.1 = k)) = false by
        simp only [hp, decide_eq_false_iff_not]; exact Ne.symm hkk]
      exact ih
    · simp only [List.filter]
      rw [show (decide (p.1 ≠ k')) = true by simpa using hp]
      simp only [List.find?]
      cases hd : decide (p.1 = k)
      · simpa [hd] using ih
      · simp [hd]

/-- C8 counterexample: with an existing sidecar record carrying a tags
field and a caller record without one, the persisted record has no tags
field at all, so the existing field is not preserved. -/
theorem c8_counterexample :
    objGet "tags".data
        (writeDescriptionData [("description".data, "b".data)] "T".data
          (some "H".data)) = none ∧
    objGet "tags".data
        [("description".data, "a".data), ("tags".data, "t".data)] =
      some "t".data := by
  exact ⟨by decide, by decide⟩

/-- C8 (amended): writeDescription persists exactly the caller-supplied
record, transformed: the legacy presetName key is absent, updatedAt is the
write time, createdAt is defaulted to the write time only when the supplied
record has none (or an empty one), fileHash is refreshed when the file is
readable and otherwise left as supplied, and every other field equals the
caller-supplied value; fields only present in the previously persisted
record are not preserved (the merge with the existing record happens in the
callers, which spread the freshly read record into the object they pass). -/
theorem c8_writeDescription (descObj : List (List Char × List Char))
    (now : List Char) (hashRes : Option (List Char)) :
    objGet "presetName".data (writeDescriptionData descObj now hashRes) = none ∧
    objGet "updatedAt".data (writeDescriptionData descObj now hashRes) = some now ∧
    (strFieldTruthy (objGet "createdAt".data descObj) = true →
      objGet "createdAt".data (writeDescriptionData descObj now hashRes) =
        objGet "createdAt".data descObj) ∧
    (strFieldTruthy (objGet "createdAt".data descObj) = false →
      objGet "createdAt".data (writeDescriptionData descObj now hashRes) =
        some now) ∧
    (∀ h, hashRes = some h →
      objGet "fileHash".data (writeDescriptionData descObj now hashRes) = some h) ∧
    (hashRes = none →
      objGet "fileHash".data (writeDescriptionData descObj now hashRes) =
        objGet "fileHash".data descObj) ∧
    (∀ k, k ≠ "presetName".data → k ≠ "updatedAt".data → k ≠ "createdAt".data →
      k ≠ "fileHash".data →
      objGet k (writeDescriptionData descObj now hashRes) = objGet k descObj) := by
  have hcreated : objGet "createdAt".data
      (objSet (objRemove "presetName".data descObj) "updatedAt".data now) =
      objGet "createdAt".data descObj := by
    rw [objGet_objSet_other _ _ _ _ (by decide),
        objGet_objRemove_other _ _ _ (by decide)]
  cases hashRes with
  | some h =>
    simp only [writeDescriptionData]
    refine ⟨?_, ?_, ?_, ?_, ?_, ?_, ?_⟩
    · split
      · rw [objGet_objSet_other _ _ _ _ (by decide),
            objGet_objSet_other _ _ _ _ (by decide), objGet_objRemove_same]
      · rw [objGet_objSet_other _ _ _ _ (by decide),
            objGet_objSet_other _ _ _ _ (by decide),
            objGet_objSet_other _ _ _ _ (by decide), objGet_objRemove_same]
    · split
      · rw [objGet_objSet_other _ _ _ _ (by decide), objGet_objSet_same]
      · rw [objGet_objSet_other _ _ _ _ (by decide),
            objGet_objSet_other _ _ _ _ (by decide), objGet_objSet_same]
    · intro htr
      split
      · rw [objGet_objSet_other _ _ _ _ (by decide)]
        exact hcreated
      · rename_i hc
        rw [hcreated] at hc
        exact absurd htr hc
    · intro hfl
      split
      · rename_i hc
        rw [hcreated] at hc
        rw [hc] at hfl
        simp at hfl
      · rw [objGet_objSet_other _ _ _ _ (by decide), objGet_objSet_same]
    · intro h' hh
      cases hh
      split <;> rw [objGet_objSet_same]
    · intro hh
      exact absurd hh (by simp)
    · intro k h1 h2 h3 h4
      split
      · rw [objGet_objSet_other _ _ _ _ h4, objGet_objSet_other _ _ _ _ h2,
            objGet_objRemove_other _ _ _ h1]
      · rw [objGet_objSet_other _ _ _ _ h4, objGet_objSet_other _ _ _ _ h3,
            objGet_objSet_other _ _ _ _ h2, objGet_objRemove_other _ _ _ h1]
  | none =>
    simp only [writeDescriptionData]
    refine ⟨?_, ?_, ?_, ?_, ?_, ?_, ?_⟩
    · split
      · rw [objGet_objSet_other _ _ _ _ (by decide), objGet_objRemove_same]
      · rw [objGet_objSet_other _ _ _ _ (by decide),
            objGet_objSet_other _ _ _ _ (by decide), objGet_objRemove_same]
    · split
      · rw [objGet_objSet_same]
      · rw [objGet_objSet_other _ _ _ _ (by decide), objGet_objSet_same]
    · intro htr
      split
      · exact hcreated
      · rename_i hc
        rw [hcreated] at hc
        exact absurd htr hc
    · intro hfl
      split
      · rename_i hc
        rw [hcreated] at hc
        rw [hc] at hfl
        simp at hfl
      · rw [objGet_objSet_same]
    · intro h' hh
      exact absurd hh (by simp)
    · intro _
      split
      · rw [objGet_objSet_other _ _ _ _ (by decide),
            objGet_objRemove_other _ _ _ (by decide)]
      · rw [objGet_objSet_other _ _ _ _ (by decide),
            objGet_objSet_other _ _ _ _ (by decide),
            objGet_objRemove_other _ _ _ (by decide)]
    · intro k h1 h2 h3 h4
      split
      · rw [objGet_objSet_other _ _ _ _ h2, objGet_objRemove_other _ _ _ h1]
      · rw [objGet_objSet_other _ _ _ _ h3, objGet_objSet_other _ _ _ _ h2,
            objGet_objRemove_other _ _ _ h1]

theorem c8_witness :
    objGet "description".data
        (writeDescriptionData
          [("presetName".data, "p".data), ("description".data, "b".data)]
          "T1".data (some "HH".data)) =
      objGet "description".data
        [("presetName".data, "p".data), ("description".data, "b".data)] :=
  (c8_writeDescription
      [("presetName".data, "p".data), ("description".data, "b".data)]
      "T1".data (some "HH".data)).2.2.2.2.2.2 "description".data
    (by decide) (by decide) (by decide) (by decide)

/-! ## Claim C2 -/

theorem findFirstMatch_of_first (fh : List Char) :
    ∀ (cs : List DirEntry) (k : Nat) (c : DirEntry),
      cs.get? k = some c → c.hash = fh →
      (∀ j, j < k → ∀ cj, cs.get? j = some cj → cj.hash ≠ fh) →
      findFirstMatch fh cs = some (c, cs.take k ++ cs.drop (k + 1)) := by
  intro cs
  induction cs with
  | nil => intro k c hk; simp at hk
  | cons c0 cs' ih =>
    intro k c hk hc hfirst
    cases k with
    | zero =>
      simp only [List.get?] at hk
      cases hk
      simp [findFirstMatch, hc]
    | succ k' =>
      have h0 : c0.hash ≠ fh := hfirst 0 (Nat.succ_pos _) c0 rfl
      simp only [List.get?] at hk
      have := ih k' c hk hc
        (fun j hj cj hcj => hfirst (j + 1) (Nat.succ_lt_succ hj) cj hcj)
      simp only [findFirstMatch, if_neg h0, this]
      simp [List.take, List.drop]

theorem findFirstMatch_none (fh : List Char) :
    ∀ (cs : List DirEntry), (∀ cj ∈ cs, cj.hash ≠ fh) →
      findFirstMatch fh cs = none := by
  intro cs
  induction cs with
  | nil => intro; rfl
  | cons c0 cs' ih =>
    intro h
    have h0 : c0.hash ≠ fh := h c0 (by simp)
    simp only [findFirstMatch, if_neg h0, ih (fun cj hcj => h cj (by simp [hcj]))]

/-- C2: reconcileOrphanedDescFiles processes the orphaned sidecars in
listing order against the no-sidecar multimedia candidates.  An orphan
whose sidecar is unreadable or lacks a (truthy) fileHash is reported
orphaned with no rename; an orphan whose stored hash equals the hash of the
k-th remaining candidate and of no earlier one is renamed to
candidate.desc.json, the (oldName, newName) pair is recorded in reconciled,
that candidate alone is removed from further matching (every earlier
candidate stays); an orphan matching no candidate is reported orphaned with
no rename. -/
theorem c2_reconcile :
    (∀ entries, reconcileOrphanedDescFiles entries =
      reconcileLoop (orphanDescsOf entries) (candidatesOf entries)) ∧
    (∀ (o : DirEntry) rest cs,
      (o.descFileHash = none ∨ o.descFileHash = some none ∨
        o.descFileHash = some (some [])) →
      reconcileLoop (o :: rest) cs =
        ((reconcileLoop rest cs).1, o.name :: (reconcileLoop rest cs).2.1,
          (reconcileLoop rest cs).2.2)) ∧
    (∀ (o : DirEntry) rest cs fh k c, o.descFileHash = some (some fh) →
      fh ≠ [] → cs.get? k = some c → c.hash = fh →
      (∀ j, j < k → ∀ cj, cs.get? j = some cj → cj.hash ≠ fh) →
      reconcileLoop (o :: rest) cs =
        ((stripDescJson o.name, c.name) ::
            (reconcileLoop rest (cs.take k ++ cs.drop (k + 1))).1,
          (reconcileLoop rest (cs.take k ++ cs.drop (k + 1))).2.1,
          (o.name, c.name ++ descJsonSuffix) ::
            (reconcileLoop rest (cs.take k ++ cs.drop (k + 1))).2.2)) ∧
    (∀ (o : DirEntry) rest cs fh, o.descFileHash = some (some fh) →
      fh ≠ [] → (∀ cj ∈ cs, cj.hash ≠ fh) →
      reconcileLoop (o :: rest) cs =
        ((reconcileLoop rest cs).1, o.name :: (reconcileLoop rest cs).2.1,
          (reconcileLoop rest cs).2.2)) := by
  refine ⟨fun _ => rfl, ?_, ?_, ?_⟩
  · intro o rest cs h
    rcases h with h | h | h <;> simp [reconcileLoop, h]
  · intro o rest cs fh k c hdesc hfh hk hc hfirst
    have hm := findFirstMatch_of_first fh cs k c hk hc hfirst
    simp [reconcileLoop, hdesc, hfh, hm]
  · intro o rest cs fh hdesc hfh hnone
    have hm := findFirstMatch_none fh cs hnone
    simp [reconcileLoop, hdesc, hfh, hm]

/-- C2 witness, the fixture of the spec's testable property: an orphaned
sidecar with hash H and two candidates of which only the second carries H
is renamed to the second candidate's sidecar name, reported reconciled, and
the first candidate stays available. -/
theorem c2_witness :
    reconcileLoop
        [⟨"old.png.desc.json".data, true, [], some (some "H".data)⟩]
        [⟨"a.png".data, true, "H1".data, none⟩,
         ⟨"b.png".data, true, "H".data, none⟩] =
      ([("old.png".data, "b.png".data)], [],
        [("old.png.desc.json".data, "b.png.desc.json".data)]) := by
  have := c2_reconcile.2.2.1
    ⟨"old.png.desc.json".data, true, [], some (some "H".data)⟩ []
    [⟨"a.png".data, true, "H1".data, none⟩,
     ⟨"b.png".data, true, "H".data, none⟩]
    "H".data 1 ⟨"b.png".data, true, "H".data, none⟩
    rfl (by decide) rfl rfl (by decide)
  rw [this]
  decide

/-! ## Claim C1: lemmas about the marker scanner -/

theorem markerName?_not_open (x : Char) (rest : List Char) (h : x ≠ '[') :
    markerName? (x :: rest) = none := by
  unfold markerName?
  split
  · rename_i heq
    injection heq with h1 _
    exact absurd h1 h
  · rfl

theorem markerName?_not_at (y : Char) (rest : List Char) (h : y ≠ '@') :
    markerName? ('[' :: y :: rest) = none := by
  unfold markerName?
  split
  · rename_i heq
    injection heq with _ heq2
    injection heq2 with h2 _
    exact absurd h2 h
  · rfl

theorem markerName?_single (x : Char) : markerName? [x] = none := by
  unfold markerName?
  split
  · rename_i heq
    injection heq with _ heq2
    exact absurd heq2 (by simp)
  · rfl

theorem markerName?_nil : markerName? [] = none := rfl

theorem takeWhile_ne_bracket (n tail : List Char) (hn : ']' ∉ n) :
    (n ++ ':' :: ']' :: tail).takeWhile (fun c => decide (c ≠ ']')) =
      n ++ [':'] := by
  induction n with
  | nil => simp [List.takeWhile]
  | cons x n' ih =>
    have hx : x ≠ ']' := fun h => hn (by simp [h])
    simp only [List.cons_append, List.takeWhile_cons, decide_eq_true_eq]
    rw [if_pos hx]
    have := ih (fun h => hn (by simp [h]))
    rw [this]

theorem markerName?_block (n tail : List Char) (hne : n ≠ []) (hn : ']' ∉ n) :
    markerName? ('[' :: '@' :: (n ++ ':' :: ']' :: tail)) = some n := by
  have htw : (n ++ ':' :: ']' :: tail).takeWhile (fun c => decide (c ≠ ']')) =
      n ++ [':'] := takeWhile_ne_bracket n tail hn
  have hpos : 0 < n.length := List.length_pos.mpr hne
  have e1 : (n ++ [':']).length = n.length + 1 := by simp
  have e2 : (n ++ ':' :: ']' :: tail).length = n.length + (tail.length + 2) := by
    simp
  have hlen2 : 2 ≤ (n ++ [':']).length := by omega
  have hlast : (n ++ [':']).getLast? = some ':' := List.getLast?_concat n
  have hlt : (n ++ [':']).length < (n ++ ':' :: ']' :: tail).length := by omega
  simp only [markerName?, htw]
  rw [if_pos ⟨hlen2, hlast, hlt⟩, List.dropLast_concat]

theorem serializeBlock_drop (n : List Char) (tail : List Char) :
    ('[' :: '@' :: (n ++ ':' :: ']' :: tail)).drop (n.length + 4) = tail := by
  have hshape : ('[' :: '@' :: (n ++ ':' :: ']' :: tail)) =
      (('[' :: '@' :: n) ++ [':', ']']) ++ tail := by
    simp
  rw [hshape]
  refine List.drop_left' ?_
  simp <;> omega

theorem contentLen_of_marker (l : List Char) (h : (markerName? l).isSome) :
    contentLen l = 0 := by
  cases l with
  | nil => rfl
  | cons x xs => simp [contentLen, h]

theorem contentLen_append (c tail : List Char)
    (hc : ¬ (['[', '@'] <:+: c)) (ht : tail.head? ≠ some '@') :
    contentLen (c ++ tail) = c.length + contentLen tail := by
  induction c with
  | nil => simp
  | cons x c' ih =>
    have hnone : markerName? (x :: (c' ++ tail)) = none := by
      by_cases hx : x = '['
      · subst hx
        cases c' with
        | nil =>
          cases tail with
          | nil => exact markerName?_single _
          | cons t ts =>
            refine markerName?_not_at t ts ?_
            intro h
            apply ht
            simp [h]
        | cons y c'' =>
          by_cases hy : y = '@'
          · exact absurd ⟨[], c'', by simp [hy]⟩ hc
          · exact markerName?_not_at y _ hy
      · exact markerName?_not_open x _ hx
    have hc' : ¬ (['[', '@'] <:+: c') := by
      intro hin
      exact hc (List.infix_cons hin)
    rw [List.cons_append]
    rw [show contentLen (x :: (c' ++ tail)) =
      if (markerName? (x :: (c' ++ tail))).isSome then 0
      else 1 + contentLen (c' ++ tail) from rfl]
    rw [hnone]
    simp only [Option.isSome_none, Bool.false_eq_true, if_false]
    rw [ih hc']
    simp only [List.length_cons]
    omega

theorem contentLen_no_marker (c : List Char) (hc : ¬ (['[', '@'] <:+: c)) :
    contentLen c = c.length := by
  have := contentLen_append c [] hc (by simp)
  simpa using this

theorem contentLen_cons_of_none (x : Char) (c : List Char)
    (h : markerName? (x :: c) = none) :
    contentLen (x :: c) = 1 + contentLen c := by
  simp [contentLen, h]

theorem serializeTrimmed_ne_nil (p : List Char × List Char)
    (l : List (List Char × List Char)) : serializeTrimmed (p :: l) ≠ [] := by
  obtain ⟨n, c⟩ := p
  cases l with
  | nil => simp [serializeTrimmed]
  | cons q l' => simp [serializeTrimmed, serializeBlock]

theorem dropTrail_serializeBlock (n c : List Char) (hcv : ValidSegContent c) :
    dropTrail (serializeBlock n c) =
      '[' :: '@' :: (n ++ ':' :: ']' :: '\n' :: c) := by
  obtain ⟨hne, htr, _⟩ := hcv
  obtain ⟨hdw, hdt⟩ := jsTrim_eq_self_parts htr
  have h1 : serializeBlock n c =
      (('[' :: '@' :: (n ++ [':', ']', '\n'])) ++ c) ++ ['\n', '\n'] := by
    simp [serializeBlock]
  have h2 : dropTrail (('[' :: '@' :: (n ++ [':', ']', '\n'])) ++ c) =
      ('[' :: '@' :: (n ++ [':', ']', '\n'])) ++ c := by
    rw [dropTrail_append_nonblank _ _ (by rw [hdt]; exact hne), hdt]
  rw [h1, dropTrail_double_newline h2 (by simp)]
  simp

theorem dropTrail_serializeAll (segs : List (List Char × List Char))
    (hwf : ∀ p ∈ segs, ValidSegContent p.2) :
    dropTrail (serializeAll segs) = serializeTrimmed segs := by
  induction segs with
  | nil => simp [serializeAll, serializeTrimmed, dropTrail]
  | cons p rest ih =>
    obtain ⟨n, c⟩ := p
    cases rest with
    | nil =>
      show dropTrail (serializeBlock n c ++ []) = _
      rw [List.append_nil]
      exact dropTrail_serializeBlock n c (hwf (n, c) (by simp))
    | cons r2 rest' =>
      show dropTrail (serializeBlock n c ++ serializeAll (r2 :: rest')) = _
      have hrest : dropTrail (serializeAll (r2 :: rest')) =
          serializeTrimmed (r2 :: rest') :=
        ih (fun q hq => hwf q (by simp [hq]))
      rw [dropTrail_append_nonblank _ _
        (by rw [hrest]; exact serializeTrimmed_ne_nil _ _), hrest]
      rfl

theorem serializeSegments_eq_trimmed (segs : List (List Char × List Char))
    (hwf : ∀ p ∈ segs, ValidSegContent p.2) :
    serializeSegments segs = serializeTrimmed segs := by
  unfold serializeSegments jsTrim
  cases segs with
  | nil => simp [serializeAll, dropTrail, serializeTrimmed]
  | cons p rest =>
    obtain ⟨n, c⟩ := p
    show dropTrail ((serializeBlock n c ++ serializeAll rest).dropWhile
      isJsWhitespace) = _
    rw [show serializeBlock n c ++ serializeAll rest =
      '[' :: ('@' :: (n ++ ':' :: ']' :: '\n' :: (c ++ ['\n', '\n'])) ++
        serializeAll rest) from by simp [serializeBlock]]
    rw [dropWhile_cons_not_ws _ (by decide)]
    rw [show '[' :: ('@' :: (n ++ ':' :: ']' :: '\n' :: (c ++ ['\n', '\n'])) ++
        serializeAll rest) = serializeAll ((n, c) :: rest) from by
      simp [serializeAll, serializeBlock]]
    exact dropTrail_serializeAll _ hwf

theorem parseRawMatchesAux_nil (fuel : Nat) :
    parseRawMatchesAux fuel [] = [] := by
  cases fuel <;> rfl

theorem serializeBlock_append (n c X : List Char) :
    serializeBlock n c ++ X =
      '[' :: '@' :: (n ++ ':' :: ']' :: ('\n' :: (c ++ '\n' :: '\n' :: X))) := by
  simp [serializeBlock]

theorem serializeTrimmed_marker_isSome (p : List Char × List Char)
    (l : List (List Char × List Char)) (hv : ValidSegName p.1) :
    (markerName? (serializeTrimmed (p :: l))).isSome := by
  obtain ⟨n, c⟩ := p
  obtain ⟨hne, hbr, _⟩ := hv
  cases l with
  | nil =>
    show (markerName? ('[' :: '@' :: (n ++ ':' :: ']' :: '\n' :: c))).isSome
    rw [markerName?_block n ('\n' :: c) hne hbr]
    rfl
  | cons q l' =>
    show (markerName? (serializeBlock n c ++ serializeTrimmed (q :: l'))).isSome
    rw [serializeBlock_append,
        markerName?_block n _ hne hbr]
    rfl

theorem parseAux_serializeTrimmed :
    ∀ (segs : List (List Char × List Char)) (fuel : Nat),
      (∀ p ∈ segs, ValidSegName p.1 ∧ ValidSegContent p.2) →
      (serializeTrimmed segs).length < fuel →
      parseRawMatchesAux fuel (serializeTrimmed segs) = rawPairs segs := by
  intro segs
  induction segs with
  | nil =>
    intro fuel _ hfuel
    exact parseRawMatchesAux_nil fuel
  | cons p rest ih =>
    obtain ⟨n, c⟩ := p
    intro fuel hwf hfuel
    obtain ⟨f, rfl⟩ : ∃ f, fuel = f + 1 := ⟨fuel - 1, by omega⟩
    obtain ⟨⟨hnne, hnbr, hntr⟩, hcne, hctr, hcin⟩ := hwf (n, c) (by simp)
    cases rest with
    | nil =>
      show parseRawMatchesAux (f + 1)
        ('[' :: '@' :: (n ++ ':' :: ']' :: ('\n' :: c))) = [(n, '\n' :: c)]
      simp only [parseRawMatchesAux]
      rw [markerName?_block n ('\n' :: c) hnne hnbr]
      dsimp only
      rw [serializeBlock_drop n ('\n' :: c)]
      have hnl : markerName? ('\n' :: c) = none :=
        markerName?_not_open _ _ (by decide)
      rw [contentLen_cons_of_none _ _ hnl, contentLen_no_marker c hcin]
      rw [show (1 + c.length) = ('\n' :: c).length from by simp; omega]
      rw [List.take_length, List.drop_length, parseRawMatchesAux_nil]
    | cons r2 rest' =>
      have hS : serializeTrimmed ((n, c) :: r2 :: rest') =
          serializeBlock n c ++ serializeTrimmed (r2 :: rest') := rfl
      rw [hS, serializeBlock_append]
      simp only [parseRawMatchesAux]
      rw [markerName?_block n _ hnne hnbr]
      dsimp only
      rw [serializeBlock_drop n _]
      have hmark : (markerName? (serializeTrimmed (r2 :: rest'))).isSome :=
        serializeTrimmed_marker_isSome r2 rest' (hwf r2 (by simp)).1
      have hcl : contentLen
          ('\n' :: (c ++ '\n' :: '\n' :: serializeTrimmed (r2 :: rest'))) =
          c.length + 3 := by
        rw [contentLen_cons_of_none _ _ (markerName?_not_open _ _ (by decide))]
        rw [contentLen_append c _ hcin (by simp)]
        rw [contentLen_cons_of_none _ _ (markerName?_not_open _ _ (by decide))]
        rw [contentLen_cons_of_none _ _ (markerName?_not_open _ _ (by decide))]
        rw [contentLen_of_marker _ hmark]
        omega
      rw [hcl]
      have hsplit : ('\n' :: (c ++ '\n' :: '\n' :: serializeTrimmed (r2 :: rest'))) =
          ('\n' :: (c ++ ['\n', '\n'])) ++ serializeTrimmed (r2 :: rest') := by
        simp
      have hlen : ('\n' :: (c ++ ['\n', '\n'])).length = c.length + 3 := by
        simp <;> omega
      rw [hsplit, List.take_left' hlen, List.drop_left' hlen]
      have hrec : parseRawMatchesAux f (serializeTrimmed (r2 :: rest')) =
          rawPairs (r2 :: rest') := by
        refine ih f (fun q hq => hwf q (by simp [hq])) ?_
        have hb : (serializeBlock n c).length = n.length + c.length + 7 := by
          simp [serializeBlock] <;> omega
        have := hfuel
        rw [hS] at this
        simp only [List.length_append, hb] at this
        omega
      rw [hrec]
      rfl

theorem rawPairs_foldl :
    ∀ (segs : List (List Char × List Char))
      (acc : List (List Char × List Char)),
      (∀ p ∈ segs, ValidSegName p.1 ∧ ValidSegContent p.2) →
      (segs.map Prod.fst).Nodup →
      (∀ q ∈ acc, ∀ p ∈ segs, q.1 ≠ p.1) →
      (rawPairs segs).foldl (fun acc nc =>
        if jsTrim nc.2 = [] then acc
        else mapSet acc (jsTrim nc.1) (jsTrim nc.2)) acc = acc ++ segs := by
  intro segs
  induction segs with
  | nil => intro acc _ _ _; simp [rawPairs]
  | cons p rest ih =>
    obtain ⟨n, c⟩ := p
    intro acc hwf hnd hacc
    obtain ⟨⟨hnne, hnbr, hntr⟩, hcne, hctr, hcin⟩ := hwf (n, c) (by simp)
    have hstep : ∀ rawc, jsTrim rawc = c →
        (if jsTrim rawc = [] then acc else mapSet acc (jsTrim n) (jsTrim rawc)) =
          acc ++ [(n, c)] := by
      intro rawc hr
      rw [hr, if_neg hcne, hntr]
      exact mapSet_append_of_not_mem c (fun q hq => hacc q hq (n, c) (by simp))
    cases rest with
    | nil =>
      show List.foldl _ acc [(n, '\n' :: c)] = _
      simp only [List.foldl_cons, List.foldl_nil]
      exact hstep ('\n' :: c) (jsTrim_raw_content_last hctr hcne)
    | cons r2 rest' =>
      show List.foldl _ acc
        ((n, '\n' :: (c ++ ['\n', '\n'])) :: rawPairs (r2 :: rest')) = _
      simp only [List.foldl_cons]
      rw [show (if jsTrim ('\n' :: (c ++ ['\n', '\n'])) = [] then acc
          else mapSet acc (jsTrim n) (jsTrim ('\n' :: (c ++ ['\n', '\n'])))) =
          acc ++ [(n, c)] from
        hstep ('\n' :: (c ++ ['\n', '\n'])) (jsTrim_raw_content_mid hctr hcne)]
      have hnd' : ((r2 :: rest').map Prod.fst).Nodup := by
        simpa [List.nodup_cons] using (List.nodup_cons.mp hnd).2
      have hnmem : n ∉ ((r2 :: rest').map Prod.fst) :=
        (List.nodup_cons.mp hnd).1
      rw [ih (acc ++ [(n, c)]) (fun q hq => hwf q (by simp [hq])) hnd' ?_]
      · simp
      · intro q hq p' hp'
        rcases List.mem_append.mp hq with h | h
        · exact hacc q h p' (by simp [hp'])
        · simp only [List.mem_singleton] at h
          subst h
          intro heq
          apply hnmem
          have hmm : p'.1 ∈ (r2 :: rest').map Prod.fst :=
            List.mem_map_of_mem Prod.fst hp'
          rw [show n = p'.1 from heq]
          exact hmm

/-! ## Claim C1 -/

/-- C1: for every description string built purely from upsert calls — a
segment list with well-formed names (nonempty, bracket-free, trimmed) and
contents (nonempty, trimmed, not containing a marker opening), serialized
in order as marker, newline, content, blank line, with trailing whitespace
trimmed — parseSegmentedDescription recovers exactly the same segments with
the same names, contents and order, and the synthetic Native name never
appears unless it was itself a segment name. -/
theorem c1_upsert_roundtrip (segs : List (List Char × List Char))
    (hwf : ∀ p ∈ segs, ValidSegName p.1 ∧ ValidSegContent p.2)
    (hnd : (segs.map Prod.fst).Nodup) :
    parseSegmentedDescription (serializeSegments segs) = segs ∧
    ((∀ p ∈ segs, p.1 ≠ "Native".data) →
      ∀ q ∈ parseSegmentedDescription (serializeSegments segs),
        q.1 ≠ "Native".data) := by
  have hser := serializeSegments_eq_trimmed segs (fun p hp => (hwf p hp).2)
  have hfirst : parseSegmentedDescription (serializeSegments segs) = segs := by
    cases segs with
    | nil =>
      rw [hser]
      rfl
    | cons p rest =>
      obtain ⟨n, c⟩ := p
      rw [hser]
      unfold parseSegmentedDescription
      rw [if_neg (serializeTrimmed_ne_nil (n, c) rest)]
      have hraw : parseRawMatches (serializeTrimmed ((n, c) :: rest)) =
          rawPairs ((n, c) :: rest) :=
        parseAux_serializeTrimmed ((n, c) :: rest) _ hwf (by omega)
      simp only [hraw]
      have hrne : rawPairs ((n, c) :: rest) ≠ [] := by
        cases rest <;> simp [rawPairs]
      rw [if_neg hrne]
      have := rawPairs_foldl ((n, c) :: rest) [] hwf hnd (by simp)
      simpa using this
  refine ⟨hfirst, ?_⟩
  intro hnat q hq
  rw [hfirst] at hq
  exact hnat q hq

theorem c1_roundtrip_witness :
    parseSegmentedDescription (serializeSegments
        [("A".data, "hello".data), ("B".data, "world".data)]) =
      [("A".data, "hello".data), ("B".data, "world".data)] :=
  (c1_upsert_roundtrip [("A".data, "hello".data), ("B".data, "world".data)]
    (by decide) (by decide)).1

/-! ## PNG codec lemmas -/

theorem listJoin_append (xs ys : List (List Nat)) :
    listJoin (xs ++ ys) = listJoin xs ++ listJoin ys := by
  induction xs with
  | nil => rfl
  | cons x xs ih => simp [listJoin, ih]

theorem readBE32_be32 (n : Nat) (h : n < 2 ^ 32) :
    readBE32 (n / 0x1000000 % 256) (n / 0x10000 % 256) (n / 0x100 % 256)
      (n % 256) = n := by
  unfold readBE32
  omega

theorem exists_four {α : Type} (l : List α) (h : l.length = 4) :
    ∃ a b c d, l = [a, b, c, d] := by
  match l, h with
  | [a, b, c, d], _ => exact ⟨a, b, c, d, rfl⟩

theorem encodePngChunk_length (c : PngChunk) (hwf : PngChunkWF c) :
    (encodePngChunk c).length = c.data.length + 12 := by
  obtain ⟨ht, hc, _⟩ := hwf
  simp [encodePngChunk, be32, ht, hc]
  omega

theorem encodePngChunk_shape (c : PngChunk) (R : List Nat) (hwf : PngChunkWF c) :
    ∃ t0 t1 t2 t3 k0 k1 k2 k3,
      c.ctype = [t0, t1, t2, t3] ∧ c.crc = [k0, k1, k2, k3] ∧
      encodePngChunk c ++ R =
        (c.data.length / 0x1000000 % 256) :: (c.data.length / 0x10000 % 256) ::
        (c.data.length / 0x100 % 256) :: (c.data.length % 256) ::
        t0 :: t1 :: t2 :: t3 ::
        (c.data ++ ([k0, k1, k2, k3] ++ R)) := by
  obtain ⟨ht, hc, _⟩ := hwf
  obtain ⟨t0, t1, t2, t3, hty⟩ := exists_four c.ctype ht
  obtain ⟨k0, k1, k2, k3, hcrc⟩ := exists_four c.crc hc
  refine ⟨t0, t1, t2, t3, k0, k1, k2, k3, hty, hcrc, ?_⟩
  simp [encodePngChunk, be32, hty, hcrc]

theorem parsePngChunksAux_encode (f : Nat) (c : PngChunk) (R : List Nat)
    (hwf : PngChunkWF c) :
    parsePngChunksAux (f + 1) (encodePngChunk c ++ R) =
      (c.ctype, c.data) :: parsePngChunksAux f R := by
  obtain ⟨t0, t1, t2, t3, k0, k1, k2, k3, hty, hcrc, hshape⟩ :=
    encodePngChunk_shape c R hwf
  rw [hshape]
  simp only [parsePngChunksAux]
  rw [readBE32_be32 c.data.length hwf.2.2]
  rw [if_pos ?guard]
  case guard =>
    simp only [List.length_cons, List.length_append]
    omega
  rw [List.take_left' rfl]
  rw [show c.data ++ ([k0, k1, k2, k3] ++ R) =
      (c.data ++ [k0, k1, k2, k3]) ++ R from by simp]
  rw [List.drop_left' (by simp)]
  rw [hty]

theorem parsePngChunksAux_concat :
    ∀ (cs : List PngChunk) (fuel : Nat),
      (∀ c ∈ cs, PngChunkWF c) →
      (listJoin (cs.map encodePngChunk)).length ≤ fuel →
      parsePngChunksAux fuel (listJoin (cs.map encodePngChunk)) =
        cs.map (fun c => (c.ctype, c.data)) := by
  intro cs
  induction cs with
  | nil =>
    intro fuel _ _
    cases fuel <;> rfl
  | cons c cs' ih =>
    intro fuel hwf hfuel
    have hwc := hwf c (by simp)
    have hlen : (encodePngChunk c).length = c.data.length + 12 :=
      encodePngChunk_length c hwc
    have hj : listJoin ((c :: cs').map encodePngChunk) =
        encodePngChunk c ++ listJoin (cs'.map encodePngChunk) := rfl
    rw [hj] at hfuel ⊢
    obtain ⟨f, rfl⟩ : ∃ f, fuel = f + 1 := by
      refine ⟨fuel - 1, ?_⟩
      rw [List.length_append] at hfuel
      omega
    rw [parsePngChunksAux_encode f c _ hwc]
    rw [ih f (fun q hq => hwf q (by simp [hq])) ?_]
    · rfl
    · rw [List.length_append] at hfuel
      omega

theorem pngRebuildAux_nil (newChunk : List Nat) (fuel : Nat) (rep : Bool) :
    pngRebuildAux newChunk fuel [] rep = ([], rep) := by
  cases fuel <;> rfl

theorem pngRebuildAux_encode_keep (newChunk : List Nat) (f : Nat)
    (c : PngChunk) (R : List Nat) (rep : Bool) (hwf : PngChunkWF c)
    (hcond : (isDescriptionChunk c && !rep) = false) :
    pngRebuildAux newChunk (f + 1) (encodePngChunk c ++ R) rep =
      (encodePngChunk c :: (pngRebuildAux newChunk f R rep).1,
        (pngRebuildAux newChunk f R rep).2) := by
  obtain ⟨t0, t1, t2, t3, k0, k1, k2, k3, hty, hcrc, hshape⟩ :=
    encodePngChunk_shape c R hwf
  rw [hshape]
  simp only [pngRebuildAux]
  rw [readBE32_be32 c.data.length hwf.2.2]
  rw [if_pos ?guard]
  case guard =>
    simp only [List.length_cons, List.length_append]
    omega
  rw [List.take_left' rfl]
  have hdescEq : isDescriptionChunkData [t0, t1, t2, t3] c.data =
      isDescriptionChunk c := by
    rw [isDescriptionChunk, hty]
  rw [hdescEq, if_neg (by simp [hcond])]
  rw [show c.data ++ ([k0, k1, k2, k3] ++ R) =
      (c.data ++ [k0, k1, k2, k3]) ++ R from by simp]
  rw [List.drop_left' (by simp)]
  rw [show (c.data.length / 0x1000000 % 256) :: (c.data.length / 0x10000 % 256) ::
      (c.data.length / 0x100 % 256) :: (c.data.length % 256) ::
      t0 :: t1 :: t2 :: t3 :: ((c.data ++ [k0, k1, k2, k3]) ++ R) =
      encodePngChunk c ++ R from by
    simp [encodePngChunk, be32, hty, hcrc]]
  rw [List.take_left' (by rw [encodePngChunk_length c hwf]; omega)]

theorem pngRebuildAux_encode_replace (newChunk : List Nat) (f : Nat)
    (c : PngChunk) (R : List Nat) (hwf : PngChunkWF c)
    (hdesc : isDescriptionChunk c = true) :
    pngRebuildAux newChunk (f + 1) (encodePngChunk c ++ R) false =
      (newChunk :: (pngRebuildAux newChunk f R true).1,
        (pngRebuildAux newChunk f R true).2) := by
  obtain ⟨t0, t1, t2, t3, k0, k1, k2, k3, hty, hcrc, hshape⟩ :=
    encodePngChunk_shape c R hwf
  rw [hshape]
  simp only [pngRebuildAux]
  rw [readBE32_be32 c.data.length hwf.2.2]
  rw [if_pos ?guard]
  case guard =>
    simp only [List.length_cons, List.length_append]
    omega
  rw [List.take_left' rfl]
  have hdescEq : isDescriptionChunkData [t0, t1, t2, t3] c.data =
      isDescriptionChunk c := by
    rw [isDescriptionChunk, hty]
  rw [hdescEq, if_pos (by simp [hdesc])]
  rw [show c.data ++ ([k0, k1, k2, k3] ++ R) =
      (c.data ++ [k0, k1, k2, k3]) ++ R from by simp]
  rw [List.drop_left' (by simp)]

theorem pngRebuildAux_concat_true :
    ∀ (cs : List PngChunk) (newChunk : List Nat) (fuel : Nat),
      (∀ c ∈ cs, PngChunkWF c) →
      (listJoin (cs.map encodePngChunk)).length ≤ fuel →
      pngRebuildAux newChunk fuel (listJoin (cs.map encodePngChunk)) true =
        (cs.map encodePngChunk, true) := by
  intro cs
  induction cs with
  | nil =>
    intro newChunk fuel _ _
    exact pngRebuildAux_nil newChunk fuel true
  | cons c cs' ih =>
    intro newChunk fuel hwf hfuel
    have hwc := hwf c (by simp)
    have hj : listJoin ((c :: cs').map encodePngChunk) =
        encodePngChunk c ++ listJoin (cs'.map encodePngChunk) := rfl
    rw [hj] at hfuel ⊢
    obtain ⟨f, rfl⟩ : ∃ f, fuel = f + 1 := by
      refine ⟨fuel - 1, ?_⟩
      rw [List.length_append, encodePngChunk_length c hwc] at hfuel
      omega
    rw [pngRebuildAux_encode_keep newChunk f c _ true hwc (by simp)]
    rw [ih newChunk f (fun q hq => hwf q (by simp [hq])) ?_]
    · rfl
    · rw [List.length_append, encodePngChunk_length c hwc] at hfuel
      omega

theorem pngRebuildAux_concat_nodesc :
    ∀ (cs : List PngChunk) (newChunk : List Nat) (fuel : Nat),
      (∀ c ∈ cs, PngChunkWF c) →
      (∀ c ∈ cs, isDescriptionChunk c = false) →
      (listJoin (cs.map encodePngChunk)).length ≤ fuel →
      pngRebuildAux newChunk fuel (listJoin (cs.map encodePngChunk)) false =
        (cs.map encodePngChunk, false) := by
  intro cs
  induction cs with
  | nil =>
    intro newChunk fuel _ _ _
    exact pngRebuildAux_nil newChunk fuel false
  | cons c cs' ih =>
    intro newChunk fuel hwf hnd hfuel
    have hwc := hwf c (by simp)
    have hj : listJoin ((c :: cs').map encodePngChunk) =
        encodePngChunk c ++ listJoin (cs'.map encodePngChunk) := rfl
    rw [hj] at hfuel ⊢
    obtain ⟨f, rfl⟩ : ∃ f, fuel = f + 1 := by
      refine ⟨fuel - 1, ?_⟩
      rw [List.length_append, encodePngChunk_length c hwc] at hfuel
      omega
    rw [pngRebuildAux_encode_keep newChunk f c _ false hwc
      (by simp [hnd c (by simp)])]
    rw [ih newChunk f (fun q hq => hwf q (by simp [hq]))
      (fun q hq => hnd q (by simp [hq])) ?_]
    · rfl
    · rw [List.length_append, encodePngChunk_length c hwc] at hfuel
      omega

theorem pngRebuildAux_concat_replace :
    ∀ (cs1 : List PngChunk) (d : PngChunk) (cs2 : List PngChunk)
      (newChunk : List Nat) (fuel : Nat),
      (∀ c ∈ cs1 ++ d :: cs2, PngChunkWF c) →
      (∀ c ∈ cs1, isDescriptionChunk c = false) →
      isDescriptionChunk d = true →
      (listJoin ((cs1 ++ d :: cs2).map encodePngChunk)).length ≤ fuel →
      pngRebuildAux newChunk fuel
          (listJoin ((cs1 ++ d :: cs2).map encodePngChunk)) false =
        (cs1.map encodePngChunk ++ newChunk :: cs2.map encodePngChunk, true) := by
  intro cs1
  induction cs1 with
  | nil =>
    intro d cs2 newChunk fuel hwf _ hdesc hfuel
    have hwd := hwf d (by simp)
    have hj : listJoin (((d :: cs2)).map encodePngChunk) =
        encodePngChunk d ++ listJoin (cs2.map encodePngChunk) := rfl
    simp only [List.nil_append] at hfuel ⊢
    rw [hj] at hfuel ⊢
    obtain ⟨f, rfl⟩ : ∃ f, fuel = f + 1 := by
      refine ⟨fuel - 1, ?_⟩
      rw [List.length_append, encodePngChunk_length d hwd] at hfuel
      omega
    rw [pngRebuildAux_encode_replace newChunk f d _ hwd hdesc]
    rw [pngRebuildAux_concat_true cs2 newChunk f
      (fun q hq => hwf q (by simp [hq])) ?_]
    · rfl
    · rw [List.length_append, encodePngChunk_length d hwd] at hfuel
      omega
  | cons c cs1' ih =>
    intro d cs2 newChunk fuel hwf hnd hdesc hfuel
    have hwc := hwf c (by simp)
    have hj : listJoin ((c :: (cs1' ++ d :: cs2)).map encodePngChunk) =
        encodePngChunk c ++ listJoin ((cs1' ++ d :: cs2).map encodePngChunk) := rfl
    simp only [List.cons_append] at hfuel ⊢
    rw [hj] at hfuel ⊢
    obtain ⟨f, rfl⟩ : ∃ f, fuel = f + 1 := by
      refine ⟨fuel - 1, ?_⟩
      rw [List.length_append, encodePngChunk_length c hwc] at hfuel
      omega
    rw [pngRebuildAux_encode_keep newChunk f c _ false hwc
      (by simp [hnd c (by simp)])]
    rw [ih d cs2 newChunk f (fun q hq => hwf q (by simp [hq]))
      (fun q hq => hnd q (by simp [hq])) hdesc ?_]
    · rfl
    · rw [List.length_append, encodePngChunk_length c hwc] at hfuel
      omega

theorem pngSignature_length : pngSignature.length = 8 := rfl

/-- The write path on a well-formed PNG with a first Description chunk
somewhere: that chunk alone is replaced by the newly built iTXt chunk. -/
theorem writePng_replace_eq (text : List Char) (htext : jsTrim text ≠ [])
    (cs1 : List PngChunk) (d : PngChunk) (cs2 : List PngChunk)
    (hwf : ∀ c ∈ cs1 ++ d :: cs2, PngChunkWF c)
    (hnd : ∀ c ∈ cs1, isDescriptionChunk c = false)
    (hdesc : isDescriptionChunk d = true) :
    writePngEmbeddedMetadata text
        (pngSignature ++ listJoin ((cs1 ++ d :: cs2).map encodePngChunk)) =
      some (pngSignature ++ listJoin (cs1.map encodePngChunk) ++
        (buildPngChunk iTXtName (buildITXtChunkData "Description".data text) ++
          listJoin (cs2.map encodePngChunk))) := by
  set J := listJoin ((cs1 ++ d :: cs2).map encodePngChunk) with hJ
  have hsig : (pngSignature ++ J).take 8 = pngSignature :=
    List.take_left' pngSignature_length
  have hdrop : (pngSignature ++ J).drop 8 = J :=
    List.drop_left' pngSignature_length
  have hfuel : J.length ≤ (pngSignature ++ J).length + 1 := by
    rw [List.length_append]
    omega
  have hres := pngRebuildAux_concat_replace cs1 d cs2
    (buildPngChunk iTXtName (buildITXtChunkData "Description".data text))
    ((pngSignature ++ J).length + 1) hwf hnd hdesc hfuel
  unfold writePngEmbeddedMetadata
  rw [if_pos hsig, if_neg htext, hdrop]
  dsimp only
  rw [← hJ] at hres
  rw [hres]
  simp only [if_pos rfl]
  rw [listJoin_append]
  rw [show listJoin ((buildPngChunk iTXtName
      (buildITXtChunkData "Description".data text)) :: cs2.map encodePngChunk) =
    buildPngChunk iTXtName (buildITXtChunkData "Description".data text) ++
      listJoin (cs2.map encodePngChunk) from rfl]
  simp [List.append_assoc]

/-- The write path on a well-formed PNG with no Description chunk: the new
chunk is inserted right after the first chunk. -/
theorem writePng_insert_eq (text : List Char) (htext : jsTrim text ≠ [])
    (c0 : PngChunk) (cs' : List PngChunk)
    (hwf : ∀ c ∈ c0 :: cs', PngChunkWF c)
    (hnd : ∀ c ∈ c0 :: cs', isDescriptionChunk c = false) :
    writePngEmbeddedMetadata text
        (pngSignature ++ listJoin ((c0 :: cs').map encodePngChunk)) =
      some (pngSignature ++ encodePngChunk c0 ++
        (buildPngChunk iTXtName (buildITXtChunkData "Description".data text) ++
          listJoin (cs'.map encodePngChunk))) := by
  set J := listJoin ((c0 :: cs').map encodePngChunk) with hJ
  have hsig : (pngSignature ++ J).take 8 = pngSignature :=
    List.take_left' pngSignature_length
  have hdrop : (pngSignature ++ J).drop 8 = J :=
    List.drop_left' pngSignature_length
  have hfuel : J.length ≤ (pngSignature ++ J).length + 1 := by
    rw [List.length_append]
    omega
  have hres := pngRebuildAux_concat_nodesc (c0 :: cs')
    (buildPngChunk iTXtName (buildITXtChunkData "Description".data text))
    ((pngSignature ++ J).length + 1) hwf hnd hfuel
  unfold writePngEmbeddedMetadata
  rw [if_pos hsig, if_neg htext, hdrop]
  dsimp only
  rw [← hJ] at hres
  rw [hres]
  simp only [List.map_cons]
  simp [listJoin, List.append_assoc]

/-! ## Claim C4 -/

/-- C4: for a well-formed PNG buffer (signature followed by encoded chunks)
and non-whitespace text, the rebuilt file keeps every chunk other than the
replaced or inserted Description chunk byte-identical and in original
order: the first tEXt/iTXt chunk with keyword Description is replaced in
place; when no such chunk exists the new iTXt chunk is inserted at position
2, immediately after the IHDR chunk. -/
theorem c4_png_write_frame (text : List Char) (htext : jsTrim text ≠ []) :
    (∀ (cs1 : List PngChunk) (d : PngChunk) (cs2 : List PngChunk),
      (∀ c ∈ cs1 ++ d :: cs2, PngChunkWF c) →
      (∀ c ∈ cs1, isDescriptionChunk c = false) →
      isDescriptionChunk d = true →
      writePngEmbeddedMetadata text
          (pngSignature ++ listJoin ((cs1 ++ d :: cs2).map encodePngChunk)) =
        some (pngSignature ++ listJoin (cs1.map encodePngChunk) ++
          (buildPngChunk iTXtName (buildITXtChunkData "Description".data text) ++
            listJoin (cs2.map encodePngChunk)))) ∧
    (∀ (c0 : PngChunk) (cs' : List PngChunk),
      (∀ c ∈ c0 :: cs', PngChunkWF c) →
      (∀ c ∈ c0 :: cs', isDescriptionChunk c = false) →
      asciiDecode c0.ctype = "IHDR".data →
      writePngEmbeddedMetadata text
          (pngSignature ++ listJoin ((c0 :: cs').map encodePngChunk)) =
        some (pngSignature ++ encodePngChunk c0 ++
          (buildPngChunk iTXtName (buildITXtChunkData "Description".data text) ++
            listJoin (cs'.map encodePngChunk)))) := by
  constructor
  · intro cs1 d cs2 hwf hnd hdesc
    exact writePng_replace_eq text htext cs1 d cs2 hwf hnd hdesc
  · intro c0 cs' hwf hnd _
    exact writePng_insert_eq text htext c0 cs' hwf hnd

theorem c4_witness :
    writePngEmbeddedMetadata "new".data
        (pngSignature ++ listJoin
          ((([(⟨[73, 72, 68, 82], [0], [9, 9, 9, 9]⟩ : PngChunk)] ++
            (⟨[116, 69, 88, 116],
              [68, 101, 115, 99, 114, 105, 112, 116, 105, 111, 110, 0,
                111, 108, 100], [9, 9, 9, 9]⟩ : PngChunk) ::
            [(⟨[73, 69, 78, 68], [], [9, 9, 9, 9]⟩ : PngChunk)])).map
            encodePngChunk)) =
      some (pngSignature ++
        listJoin ([(⟨[73, 72, 68, 82], [0], [9, 9, 9, 9]⟩ : PngChunk)].map
          encodePngChunk) ++
        (buildPngChunk iTXtName
          (buildITXtChunkData "Description".data "new".data) ++
          listJoin ([(⟨[73, 69, 78, 68], [], [9, 9, 9, 9]⟩ : PngChunk)].map
            encodePngChunk))) :=
  (c4_png_write_frame "new".data (by decide)).1
    [⟨[73, 72, 68, 82], [0], [9, 9, 9, 9]⟩]
    ⟨[116, 69, 88, 116],
      [68, 101, 115, 99, 114, 105, 112, 116, 105, 111, 110, 0, 111, 108, 100],
      [9, 9, 9, 9]⟩
    [⟨[73, 69, 78, 68], [], [9, 9, 9, 9]⟩]
    (by decide) (by decide) (by decide)

/-! ## UTF-8 round trip -/

theorem char_valid_nat (c : Char) :
    c.toNat < 0xD800 ∨ (0xE000 ≤ c.toNat ∧ c.toNat < 0x110000) := by
  have h := c.valid
  unfold UInt32.isValidChar at h
  unfold Nat.isValidChar at h
  exact h

theorem utf8EncodeChar_length_pos (c : Char) : 0 < (utf8EncodeChar c).length := by
  simp only [utf8EncodeChar]
  split
  · simp
  · split
    · simp
    · split <;> simp

theorem utf8DecodeAux_encodeChar (c : Char) (rest : List Nat) (f : Nat) :
    utf8DecodeAux (f + 1) (utf8EncodeChar c ++ rest) =
      c :: utf8DecodeAux f rest := by
  have hval := char_valid_nat c
  by_cases h1 : c.toNat < 0x80
  · have henc : utf8EncodeChar c = [c.toNat] := by
      simp only [utf8EncodeChar]
      rw [if_pos h1]
    rw [henc, show ([c.toNat] : List Nat) ++ rest = c.toNat :: rest from rfl]
    simp only [utf8DecodeAux]
    rw [if_pos h1, Char.ofNat_toNat]
  · by_cases h2 : c.toNat < 0x800
    · have henc : utf8EncodeChar c =
          [0xC0 + c.toNat / 64, 0x80 + c.toNat % 64] := by
        simp only [utf8EncodeChar]
        rw [if_neg h1, if_pos h2]
      rw [henc, show ([0xC0 + c.toNat / 64, 0x80 + c.toNat % 64] : List Nat) ++
        rest = (0xC0 + c.toNat / 64) :: (0x80 + c.toNat % 64) :: rest from rfl]
      simp only [utf8DecodeAux]
      rw [if_neg (show ¬ (0xC0 + c.toNat / 64 < 0x80) from by omega)]
      rw [if_pos (show 0xC2 ≤ 0xC0 + c.toNat / 64 ∧ 0xC0 + c.toNat / 64 < 0xE0
        from by constructor <;> omega)]
      split
      · rw [show (0xC0 + c.toNat / 64 - 0xC0) * 64 +
          (0x80 + c.toNat % 64 - 0x80) = c.toNat from by omega,
          Char.ofNat_toNat]
      · rename_i hcond
        exfalso
        simp [isUtf8Cont] at hcond
        omega
    · by_cases h3 : c.toNat < 0x10000
      · have henc : utf8EncodeChar c =
            [0xE0 + c.toNat / 4096, 0x80 + c.toNat / 64 % 64,
              0x80 + c.toNat % 64] := by
          simp only [utf8EncodeChar]
          rw [if_neg h1, if_neg h2, if_pos h3]
        rw [henc, show ([0xE0 + c.toNat / 4096, 0x80 + c.toNat / 64 % 64,
            0x80 + c.toNat % 64] : List Nat) ++ rest =
          (0xE0 + c.toNat / 4096) :: (0x80 + c.toNat / 64 % 64) ::
            (0x80 + c.toNat % 64) :: rest from rfl]
        simp only [utf8DecodeAux]
        rw [if_neg (show ¬ (0xE0 + c.toNat / 4096 < 0x80) from by omega)]
        rw [if_neg (show ¬ (0xC2 ≤ 0xE0 + c.toNat / 4096 ∧
          0xE0 + c.toNat / 4096 < 0xE0) from by omega)]
        rw [if_pos (show 0xE0 ≤ 0xE0 + c.toNat / 4096 ∧
          0xE0 + c.toNat / 4096 < 0xF0 from by constructor <;> omega)]
        split
        · rw [show (0xE0 + c.toNat / 4096 - 0xE0) * 4096 +
            (0x80 + c.toNat / 64 % 64 - 0x80) * 64 +
            (0x80 + c.toNat % 64 - 0x80) = c.toNat from by omega,
            Char.ofNat_toNat]
        · rename_i hcond
          exfalso
          simp [isUtf8Cont] at hcond
          omega
      · have h4 : c.toNat < 0x110000 := by omega
        have henc : utf8EncodeChar c =
            [0xF0 + c.toNat / 0x40000, 0x80 + c.toNat / 4096 % 64,
              0x80 + c.toNat / 64 % 64, 0x80 + c.toNat % 64] := by
          simp only [utf8EncodeChar]
          rw [if_neg h1, if_neg h2, if_neg h3]
        rw [henc, show ([0xF0 + c.toNat / 0x40000, 0x80 + c.toNat / 4096 % 64,
            0x80 + c.toNat / 64 % 64, 0x80 + c.toNat % 64] : List Nat) ++ rest =
          (0xF0 + c.toNat / 0x40000) :: (0x80 + c.toNat / 4096 % 64) ::
            (0x80 + c.toNat / 64 % 64) :: (0x80 + c.toNat % 64) :: rest
          from rfl]
        simp only [utf8DecodeAux]
        rw [if_neg (show ¬ (0xF0 + c.toNat / 0x40000 < 0x80) from by omega)]
        rw [if_neg (show ¬ (0xC2 ≤ 0xF0 + c.toNat / 0x40000 ∧
          0xF0 + c.toNat / 0x40000 < 0xE0) from by omega)]
        rw [if_neg (show ¬ (0xE0 ≤ 0xF0 + c.toNat / 0x40000 ∧
          0xF0 + c.toNat / 0x40000 < 0xF0) from by omega)]
        rw [if_pos (show 0xF0 ≤ 0xF0 + c.toNat / 0x40000 ∧
          0xF0 + c.toNat / 0x40000 < 0xF5 from by constructor <;> omega)]
        split
        · rw [show (0xF0 + c.toNat / 0x40000 - 0xF0) * 0x40000 +
            (0x80 + c.toNat / 4096 % 64 - 0x80) * 4096 +
            (0x80 + c.toNat / 64 % 64 - 0x80) * 64 +
            (0x80 + c.toNat % 64 - 0x80) = c.toNat from by omega,
            Char.ofNat_toNat]
        · rename_i hcond
          exfalso
          simp [isUtf8Cont] at hcond
          omega

theorem utf8DecodeAux_encode :
    ∀ (s : List Char) (fuel : Nat), (utf8Encode s).length ≤ fuel →
      utf8DecodeAux fuel (utf8Encode s) = s := by
  intro s
  induction s with
  | nil => intro fuel _; cases fuel <;> rfl
  | cons c s' ih =>
    intro fuel hfuel
    have hk := utf8EncodeChar_length_pos c
    have hshape : utf8Encode (c :: s') = utf8EncodeChar c ++ utf8Encode s' := rfl
    rw [hshape] at hfuel ⊢
    obtain ⟨f, rfl⟩ : ∃ f, fuel = f + 1 := by
      refine ⟨fuel - 1, ?_⟩
      rw [List.length_append] at hfuel
      omega
    rw [utf8DecodeAux_encodeChar c _ f]
    rw [ih f ?_]
    rw [List.length_append] at hfuel
    omega

theorem utf8Decode_encode (s : List Char) : utf8Decode (utf8Encode s) = s :=
  utf8DecodeAux_encode s _ (Nat.le_refl _)

theorem utf8Encode_ne_nil {s : List Char} (h : s ≠ []) : utf8Encode s ≠ [] := by
  cases s with
  | nil => exact absurd rfl h
  | cons c s' =>
    have hk := utf8EncodeChar_length_pos c
    intro he
    have hlz : (utf8Encode (c :: s')).length = 0 := by rw [he]; rfl
    rw [show utf8Encode (c :: s') = utf8EncodeChar c ++ utf8Encode s' from rfl,
      List.length_append] at hlz
    omega

theorem ne_nil_of_jsTrim {s : List Char} (h : jsTrim s ≠ []) : s ≠ [] := by
  intro he
  subst he
  exact h rfl

/-! ## Claim C3: read-side lemmas -/

theorem splitAtNull_append (K rest : List Nat) (h : 0 ∉ K) :
    splitAtNull (K ++ 0 :: rest) = some (K, rest) := by
  induction K with
  | nil => simp [splitAtNull]
  | cons b K' ih =>
    have hb : b ≠ 0 := fun he => h (by simp [he])
    rw [List.cons_append]
    rw [show splitAtNull (b :: (K' ++ 0 :: rest)) =
      (if b = 0 then some ([], K' ++ 0 :: rest) else
        match splitAtNull (K' ++ 0 :: rest) with
        | some (pre, post) => some (b :: pre, post)
        | none => none) from rfl]
    rw [if_neg hb, ih (fun he => h (by simp [he]))]

theorem readITXtChunk_built (inflate : List Nat → Option (List Nat))
    (text : List Char) :
    readITXtChunk inflate (buildITXtChunkData "Description".data text) =
      some ("Description".data, text) := by
  have hb : buildITXtChunkData "Description".data text =
      utf8Encode "Description".data ++
        0 :: 0 :: 0 :: 0 :: 0 :: utf8Encode text := by
    simp [buildITXtChunkData]
  rw [hb]
  unfold readITXtChunk
  rw [splitAtNull_append _ _ (by decide)]
  simp [splitAtNull, utf8Decode_encode]

theorem readITXtChunk_compressed (inflate : List Nat → Option (List Nat))
    (KB Z : List Nat) (h : 0 ∉ KB) :
    readITXtChunk inflate (KB ++ 0 :: 1 :: 0 :: 0 :: 0 :: Z) =
      some (utf8Decode KB, utf8Decode ((inflate Z).getD Z)) := by
  unfold readITXtChunk
  rw [splitAtNull_append _ _ h]
  cases hI : inflate Z <;> simp [splitAtNull, hI]

theorem pngChunkYield_new (inflate : List Nat → Option (List Nat))
    (text : List Char) (htext : text ≠ []) :
    pngChunkYield inflate
        (latin1Encode iTXtName, buildITXtChunkData "Description".data text) =
      some text := by
  unfold pngChunkYield
  dsimp only
  rw [if_neg (by decide), if_pos (by decide)]
  rw [readITXtChunk_built]
  dsimp only
  rw [if_pos ⟨Or.inl rfl, htext⟩]

theorem pngChunkYield_nontext (inflate : List Nat → Option (List Nat))
    (c : PngChunk) (h1 : asciiDecode c.ctype ≠ tEXtName)
    (h2 : asciiDecode c.ctype ≠ iTXtName) :
    pngChunkBytesYield inflate c = none := by
  unfold pngChunkBytesYield pngChunkYield
  dsimp only
  rw [if_neg h1, if_neg h2]

theorem readPngDescAux_skip (inflate : List Nat → Option (List Nat)) :
    ∀ (cs : List PngChunk) (X : List (List Nat × List Nat)),
      (∀ c ∈ cs, pngChunkBytesYield inflate c = none) →
      readPngDescAux inflate ((cs.map (fun c => (c.ctype, c.data))) ++ X) =
        readPngDescAux inflate X := by
  intro cs
  induction cs with
  | nil => intro X _; rfl
  | cons c cs' ih =>
    intro X hsk
    have hc : pngChunkYield inflate (c.ctype, c.data) = none :=
      hsk c (by simp)
    simp only [List.map_cons, List.cons_append, readPngDescAux, hc]
    exact ih X (fun q hq => hsk q (by simp [hq]))

theorem parsePngChunks_wf (cs : List PngChunk)
    (hwf : ∀ c ∈ cs, PngChunkWF c) :
    parsePngChunks (pngSignature ++ listJoin (cs.map encodePngChunk)) =
      some (cs.map (fun c => (c.ctype, c.data))) := by
  unfold parsePngChunks
  rw [if_pos (List.take_left' pngSignature_length),
    List.drop_left' pngSignature_length]
  rw [parsePngChunksAux_concat cs _ hwf ?_]
  rw [List.length_append]
  omega

theorem readPngDescAux_new_head (inflate : List Nat → Option (List Nat))
    (text : List Char) (htext : text ≠ [])
    (X : List (List Nat × List Nat)) :
    readPngDescAux inflate
        ((latin1Encode iTXtName,
          buildITXtChunkData "Description".data text) :: X) = some text := by
  simp only [readPngDescAux, pngChunkYield_new inflate text htext]

/-! ## Claim C3

The round trip as claimed fails: the read scan returns the first
tEXt/iTXt chunk with keyword Description or Comment, while the write only
replaces the first Description chunk, so a nonempty-text Comment chunk
sitting before the Description chunk wins the read.  The round trip holds
as soon as no chunk before the written position yields a description on
read. -/

/-- C3 counterexample: a valid PNG whose chunks are IHDR, a tEXt Comment
chunk with text x, a tEXt Description chunk, IEND.  Writing the text new
replaces the Description chunk, but reading the result returns x — the
Comment chunk is found first — not the text just written. -/
theorem c3_counterexample :
    readPngEmbeddedDescription (fun _ => none)
        ((writePngEmbeddedMetadata "new".data
          (pngSignature ++ listJoin
            (([⟨[73, 72, 68, 82], [0], [9, 9, 9, 9]⟩,
               ⟨[116, 69, 88, 116], [67, 111, 109, 109, 101, 110, 116, 0, 120],
                 [9, 9, 9, 9]⟩,
               ⟨[116, 69, 88, 116],
                 [68, 101, 115, 99, 114, 105, 112, 116, 105, 111, 110, 0,
                   111, 108, 100], [9, 9, 9, 9]⟩,
               ⟨[73, 69, 78, 68], [], [9, 9, 9, 9]⟩] : List PngChunk).map
              encodePngChunk))).getD []) = some "x".data ∧
    some "x".data ≠ some "new".data := by
  exact ⟨by decide, by decide⟩

/-- C3 (amended): writing a non-whitespace description into a well-formed
PNG and then reading it back returns exactly the original text, provided no
tEXt/iTXt chunk preceding the written position yields a description on
read (no nonempty-text Comment chunk before the first Description chunk;
when no Description chunk exists the new chunk sits right after IHDR, which
never yields).  Reading still inflates a zlib-compressed third-party iTXt
chunk through the inflate oracle (falling back to the raw bytes when
inflating fails), while the chunk the write itself builds is uncompressed:
its read result is the text, whatever the inflate oracle. -/
theorem c3_png_roundtrip (inflate : List Nat → Option (List Nat))
    (text : List Char) (htext : jsTrim text ≠ [])
    (hsize : (buildITXtChunkData "Description".data text).length < 2 ^ 32) :
    (∀ (cs1 : List PngChunk) (d : PngChunk) (cs2 : List PngChunk),
      (∀ c ∈ cs1 ++ d :: cs2, PngChunkWF c) →
      (∀ c ∈ cs1, isDescriptionChunk c = false) →
      isDescriptionChunk d = true →
      (∀ c ∈ cs1, pngChunkBytesYield inflate c = none) →
      readPngEmbeddedDescription inflate
          ((writePngEmbeddedMetadata text
            (pngSignature ++
              listJoin ((cs1 ++ d :: cs2).map encodePngChunk))).getD []) =
        some text) ∧
    (∀ (c0 : PngChunk) (cs' : List PngChunk),
      (∀ c ∈ c0 :: cs', PngChunkWF c) →
      (∀ c ∈ c0 :: cs', isDescriptionChunk c = false) →
      asciiDecode c0.ctype = "IHDR".data →
      readPngEmbeddedDescription inflate
          ((writePngEmbeddedMetadata text
            (pngSignature ++
              listJoin ((c0 :: cs').map encodePngChunk))).getD []) =
        some text) ∧
    (∀ inflate2 : List Nat → Option (List Nat),
      readITXtChunk inflate2 (buildITXtChunkData "Description".data text) =
        some ("Description".data, text)) ∧
    (∀ (KB Z : List Nat), 0 ∉ KB →
      readITXtChunk inflate (KB ++ 0 :: 1 :: 0 :: 0 :: 0 :: Z) =
        some (utf8Decode KB, utf8Decode ((inflate Z).getD Z))) := by
  have htext' : text ≠ [] := ne_nil_of_jsTrim htext
  refine ⟨?_, ?_, fun inflate2 => readITXtChunk_built inflate2 text,
    fun KB Z h => readITXtChunk_compressed inflate KB Z h⟩
  · intro cs1 d cs2 hwf hnd hdesc hskip
    rw [writePng_replace_eq text htext cs1 d cs2 hwf hnd hdesc]
    simp only [Option.getD_some]
    have hout : pngSignature ++ listJoin (cs1.map encodePngChunk) ++
        (buildPngChunk iTXtName (buildITXtChunkData "Description".data text) ++
          listJoin (cs2.map encodePngChunk)) =
        pngSignature ++ listJoin ((cs1 ++
          (⟨latin1Encode iTXtName, buildITXtChunkData "Description".data text,
            be32 (crc32 (latin1Encode iTXtName ++
              buildITXtChunkData "Description".data text))⟩ : PngChunk) ::
          cs2).map encodePngChunk) := by
      rw [List.map_append, listJoin_append, List.map_cons]
      rw [show listJoin (encodePngChunk
          (⟨latin1Encode iTXtName, buildITXtChunkData "Description".data text,
            be32 (crc32 (latin1Encode iTXtName ++
              buildITXtChunkData "Description".data text))⟩ : PngChunk) ::
          cs2.map encodePngChunk) =
        encodePngChunk
          (⟨latin1Encode iTXtName, buildITXtChunkData "Description".data text,
            be32 (crc32 (latin1Encode iTXtName ++
              buildITXtChunkData "Description".data text))⟩ : PngChunk) ++
          listJoin (cs2.map encodePngChunk) from rfl]
      simp [List.append_assoc]
      rfl
    rw [hout]
    unfold readPngEmbeddedDescription
    rw [parsePngChunks_wf _ ?hwf2]
    case hwf2 =>
      intro c hc
      rcases List.mem_append.mp hc with h | h
      · exact hwf c (List.mem_append.mpr (Or.inl h))
      · rcases List.mem_cons.mp h with h | h
        · subst h
          exact ⟨rfl, rfl, hsize⟩
        · exact hwf c (List.mem_append.mpr (Or.inr (List.mem_cons.mpr (Or.inr h))))
    dsimp only
    rw [List.map_append, List.map_cons]
    rw [readPngDescAux_skip inflate cs1 _ hskip]
    exact readPngDescAux_new_head inflate text htext' _
  · intro c0 cs' hwf hnd hihdr
    rw [writePng_insert_eq text htext c0 cs' hwf hnd]
    simp only [Option.getD_some]
    have hout : pngSignature ++ encodePngChunk c0 ++
        (buildPngChunk iTXtName (buildITXtChunkData "Description".data text) ++
          listJoin (cs'.map encodePngChunk)) =
        pngSignature ++ listJoin ((c0 ::
          (⟨latin1Encode iTXtName, buildITXtChunkData "Description".data text,
            be32 (crc32 (latin1Encode iTXtName ++
              buildITXtChunkData "Description".data text))⟩ : PngChunk) ::
          cs').map encodePngChunk) := by
      simp [listJoin, List.append_assoc]
      rfl
    rw [hout]
    unfold readPngEmbeddedDescription
    rw [parsePngChunks_wf _ ?hwf3]
    case hwf3 =>
      intro c hc
      rcases List.mem_cons.mp hc with h | h
      · rw [h]
        exact hwf c0 (by simp)
      · rcases List.mem_cons.mp h with h | h
        · subst h
          exact ⟨rfl, rfl, hsize⟩
        · exact hwf c (by simp [h])
    dsimp only
    rw [show (c0 ::
        (⟨latin1Encode iTXtName, buildITXtChunkData "Description".data text,
          be32 (crc32 (latin1Encode iTXtName ++
            buildITXtChunkData "Description".data text))⟩ : PngChunk) ::
        cs').map (fun c => (c.ctype, c.data)) =
      [c0].map (fun c => (c.ctype, c.data)) ++
        ((latin1Encode iTXtName, buildITXtChunkData "Description".data text) ::
          cs'.map (fun c => (c.ctype, c.data))) from by simp]
    rw [readPngDescAux_skip inflate [c0] _ ?c0skip]
    case c0skip =>
      intro c hc
      simp only [List.mem_singleton] at hc
      subst hc
      refine pngChunkYield_nontext inflate c ?_ ?_ <;> rw [hihdr] <;> decide
    exact readPngDescAux_new_head inflate text htext' _

theorem c3_roundtrip_witness :
    readPngEmbeddedDescription (fun _ => none)
        ((writePngEmbeddedMetadata "new".data
          (pngSignature ++ listJoin
            (([(⟨[73, 72, 68, 82], [0], [9, 9, 9, 9]⟩ : PngChunk)] ++
              (⟨[116, 69, 88, 116],
                [68, 101, 115, 99, 114, 105, 112, 116, 105, 111, 110, 0,
                  111, 108, 100], [9, 9, 9, 9]⟩ : PngChunk) ::
              [(⟨[73, 69, 78, 68], [], [9, 9, 9, 9]⟩ : PngChunk)]).map
              encodePngChunk))).getD []) = some "new".data :=
  (c3_png_roundtrip (fun _ => none) "new".data (by decide) (by decide)).1
    [⟨[73, 72, 68, 82], [0], [9, 9, 9, 9]⟩]
    ⟨[116, 69, 88, 116],
      [68, 101, 115, 99, 114, 105, 112, 116, 105, 111, 110, 0, 111, 108, 100],
      [9, 9, 9, 9]⟩
    [⟨[73, 69, 78, 68], [], [9, 9, 9, 9]⟩]
    (by decide) (by decide) (by decide) (by decide)

/-! ## JPEG codec lemmas -/

theorem be16_read (n : Nat) (h : n ≤ 65535) :
    n / 256 % 256 * 256 + n % 256 = n := by
  omega

theorem encodeJSeg_standalone_shape (m : Nat) (R : List Nat) :
    encodeJSeg (JSeg.standalone m) ++ R = 0xFF :: m :: R := rfl

theorem encodeJSeg_seg_shape (m : Nat) (p : List Nat) (R : List Nat) :
    encodeJSeg (JSeg.seg m p) ++ R =
      0xFF :: m :: ((p.length + 2) / 256 % 256) :: ((p.length + 2) % 256) ::
        (p ++ R) := by
  simp [encodeJSeg, be16]

theorem jpegRebuildAux_nil (com : List Nat) (fuel : Nat) (rep : Bool) :
    jpegRebuildAux com fuel [] rep = ([], rep) := by
  cases fuel <;> rfl

theorem jpegRebuildAux_standalone (com : List Nat) (f : Nat) (m : Nat)
    (R : List Nat) (rep : Bool) (hwf : JSegWF (JSeg.standalone m)) :
    jpegRebuildAux com (f + 1) (encodeJSeg (JSeg.standalone m) ++ R) rep =
      ([0xFF, m] :: (jpegRebuildAux com f R rep).1,
        (jpegRebuildAux com f R rep).2) := by
  have hm : (0xD0 ≤ m ∧ m ≤ 0xD7) ∨ m = 0x01 := hwf
  rw [encodeJSeg_standalone_shape]
  simp only [jpegRebuildAux]
  rw [if_neg (by simp)]
  rw [if_neg (by omega)]
  rw [if_neg (by omega)]
  rw [if_neg (by omega)]
  rw [if_pos hm]

theorem jpegRebuildAux_dataseg (com : List Nat) (f : Nat) (m : Nat)
    (p : List Nat) (R : List Nat) (rep : Bool)
    (hwf : JSegWF (JSeg.seg m p)) (hnotcom : m ≠ 0xFE) :
    jpegRebuildAux com (f + 1) (encodeJSeg (JSeg.seg m p) ++ R) rep =
      (encodeJSeg (JSeg.seg m p) :: (jpegRebuildAux com f R rep).1,
        (jpegRebuildAux com f R rep).2) := by
  obtain ⟨hff, hd8, hd9, hda, h01, hrst, hlen⟩ := hwf
  rw [encodeJSeg_seg_shape]
  simp only [jpegRebuildAux]
  rw [if_neg (by simp)]
  rw [if_neg (by omega)]
  rw [if_neg (by omega)]
  rw [if_neg (by omega)]
  rw [if_neg (by push_neg; constructor <;> omega)]
  rw [if_neg (by omega)]
  rw [show ((p.length + 2) / 256 % 256) * 256 + (p.length + 2) % 256 =
    p.length + 2 from be16_read _ (by omega)]
  rw [if_pos ?glen]
  case glen =>
    constructor
    · omega
    · simp only [List.length_cons, List.length_append]
      omega
  rw [if_neg hnotcom]
  rw [show (((p.length + 2) / 256 % 256) :: ((p.length + 2) % 256) ::
      (p ++ R)).drop (p.length + 2) = R from by
    rw [show ((p.length + 2) / 256 % 256) :: ((p.length + 2) % 256) ::
      (p ++ R) = ((((p.length + 2) / 256 % 256) :: ((p.length + 2) % 256) ::
        p) ++ R) from by simp]
    exact List.drop_left' (by simp)]
  rw [show (0xFF :: m :: ((p.length + 2) / 256 % 256) ::
      ((p.length + 2) % 256) :: (p ++ R)).take (2 + (p.length + 2)) =
    encodeJSeg (JSeg.seg m p) from by
    rw [show 0xFF :: m :: ((p.length + 2) / 256 % 256) ::
      ((p.length + 2) % 256) :: (p ++ R) =
      (encodeJSeg (JSeg.seg m p)) ++ R from (encodeJSeg_seg_shape m p R).symm]
    exact List.take_left' (by simp [encodeJSeg, be16]; omega)]

theorem jpegRebuildAux_comseg_replace (com : List Nat) (f : Nat)
    (p : List Nat) (R : List Nat) (hwf : JSegWF (JSeg.seg 0xFE p)) :
    jpegRebuildAux com (f + 1) (encodeJSeg (JSeg.seg 0xFE p) ++ R) false =
      (com :: (jpegRebuildAux com f R true).1,
        (jpegRebuildAux com f R true).2) := by
  obtain ⟨hff, hd8, hd9, hda, h01, hrst, hlen⟩ := hwf
  rw [encodeJSeg_seg_shape]
  simp only [jpegRebuildAux]
  rw [if_neg (by simp)]
  rw [if_neg (by omega)]
  rw [if_neg (by omega)]
  rw [if_neg (by omega)]
  rw [if_neg (by push_neg; constructor <;> omega)]
  rw [if_neg (by omega)]
  rw [show ((p.length + 2) / 256 % 256) * 256 + (p.length + 2) % 256 =
    p.length + 2 from be16_read _ (by omega)]
  rw [if_pos ?glen2]
  case glen2 =>
    constructor
    · omega
    · simp only [List.length_cons, List.length_append]
      omega
  rw [if_pos trivial]
  rw [if_neg (by simp)]
  rw [show (((p.length + 2) / 256 % 256) :: ((p.length + 2) % 256) ::
      (p ++ R)).drop (p.length + 2) = R from by
    rw [show ((p.length + 2) / 256 % 256) :: ((p.length + 2) % 256) ::
      (p ++ R) = ((((p.length + 2) / 256 % 256) :: ((p.length + 2) % 256) ::
        p) ++ R) from by simp]
    exact List.drop_left' (by simp)]

theorem jpegRebuildAux_comseg_drop (com : List Nat) (f : Nat)
    (p : List Nat) (R : List Nat) (hwf : JSegWF (JSeg.seg 0xFE p)) :
    jpegRebuildAux com (f + 1) (encodeJSeg (JSeg.seg 0xFE p) ++ R) true =
      jpegRebuildAux com f R true := by
  obtain ⟨hff, hd8, hd9, hda, h01, hrst, hlen⟩ := hwf
  rw [encodeJSeg_seg_shape]
  simp only [jpegRebuildAux]
  rw [if_neg (by simp)]
  rw [if_neg (by omega)]
  rw [if_neg (by omega)]
  rw [if_neg (by omega)]
  rw [if_neg (by push_neg; constructor <;> omega)]
  rw [if_neg (by omega)]
  rw [show ((p.length + 2) / 256 % 256) * 256 + (p.length + 2) % 256 =
    p.length + 2 from be16_read _ (by omega)]
  rw [if_pos ?glen3]
  case glen3 =>
    constructor
    · omega
    · simp only [List.length_cons, List.length_append]
      omega
  rw [if_pos trivial]
  rw [show (((p.length + 2) / 256 % 256) :: ((p.length + 2) % 256) ::
      (p ++ R)).drop (p.length + 2) = R from by
    rw [show ((p.length + 2) / 256 % 256) :: ((p.length + 2) % 256) ::
      (p ++ R) = ((((p.length + 2) / 256 % 256) :: ((p.length + 2) % 256) ::
        p) ++ R) from by simp]
    exact List.drop_left' (by simp)]
  rw [if_pos trivial]

theorem jpegRebuildAux_sos (com : List Nat) (f : Nat) (tail : List Nat)
    (rep : Bool) :
    jpegRebuildAux com (f + 1) (0xFF :: 0xDA :: tail) rep =
      (if rep then [0xFF :: 0xDA :: tail]
        else [com, 0xFF :: 0xDA :: tail], rep || true) := by
  simp only [jpegRebuildAux]
  rw [if_neg (by simp)]
  rw [if_neg (by omega)]
  rw [if_neg (by omega)]
  rw [if_neg (by omega)]
  rw [if_neg (by push_neg; constructor <;> omega)]
  rw [if_pos trivial]
  cases rep <;> simp

theorem length_le_listJoin_encode (segs : List JSeg) :
    segs.length ≤ (listJoin (segs.map encodeJSeg)).length := by
  induction segs with
  | nil => simp [listJoin]
  | cons s segs ih =>
    simp only [List.map_cons, listJoin, List.length_append, List.length_cons]
    have : 1 ≤ (encodeJSeg s).length := by
      cases s <;> simp [encodeJSeg, be16]
    omega

theorem jpegRebuildAux_concat_true (com : List Nat) (tail : List Nat) :
    ∀ (segs : List JSeg) (f : Nat), (∀ s ∈ segs, JSegWF s) →
      segs.length + 1 ≤ f →
      jpegRebuildAux com f
          (listJoin (segs.map encodeJSeg) ++ (0xFF :: 0xDA :: tail)) true =
        ((segs.filter (fun s => !isComSeg s)).map encodeJSeg ++
          [0xFF :: 0xDA :: tail], true) := by
  intro segs
  induction segs with
  | nil =>
    intro f _ hf
    obtain ⟨f', rfl⟩ : ∃ f', f = f' + 1 := ⟨f - 1, by omega⟩
    rw [show listJoin (List.map encodeJSeg []) ++ (0xFF :: 0xDA :: tail) =
      0xFF :: 0xDA :: tail from by simp [listJoin]]
    rw [jpegRebuildAux_sos]
    simp
  | cons s segs ih =>
    intro f hwf hf
    obtain ⟨f', rfl⟩ : ∃ f', f = f' + 1 := ⟨f - 1, by omega⟩
    rw [show listJoin (List.map encodeJSeg (s :: segs)) ++
        (0xFF :: 0xDA :: tail) =
      encodeJSeg s ++ (listJoin (List.map encodeJSeg segs) ++
        (0xFF :: 0xDA :: tail)) from by
      simp [listJoin, List.append_assoc]]
    have hs : JSegWF s := hwf s (by simp)
    have hrest : ∀ t ∈ segs, JSegWF t := fun t ht => hwf t (by simp [ht])
    have hlen : segs.length + 1 ≤ f' := by
      simp only [List.length_cons] at hf; omega
    match s with
    | .standalone m =>
      rw [jpegRebuildAux_standalone com f' m _ true hs]
      rw [ih f' hrest hlen]
      simp [isComSeg, listJoin, encodeJSeg]
    | .seg m p =>
      by_cases hm : m = 0xFE
      · subst hm
        rw [jpegRebuildAux_comseg_drop com f' p _ hs]
        rw [ih f' hrest hlen]
        simp [isComSeg]
      · rw [jpegRebuildAux_dataseg com f' m p _ true hs hm]
        rw [ih f' hrest hlen]
        simp [isComSeg, hm]

theorem jpegRebuildAux_concat_nocom (com : List Nat) (tail : List Nat) :
    ∀ (segs : List JSeg) (f : Nat), (∀ s ∈ segs, JSegWF s) →
      (∀ s ∈ segs, isComSeg s = false) →
      segs.length + 1 ≤ f →
      jpegRebuildAux com f
          (listJoin (segs.map encodeJSeg) ++ (0xFF :: 0xDA :: tail)) false =
        (segs.map encodeJSeg ++ [com, 0xFF :: 0xDA :: tail], true) := by
  intro segs
  induction segs with
  | nil =>
    intro f _ _ hf
    obtain ⟨f', rfl⟩ : ∃ f', f = f' + 1 := ⟨f - 1, by omega⟩
    rw [show listJoin (List.map encodeJSeg []) ++ (0xFF :: 0xDA :: tail) =
      0xFF :: 0xDA :: tail from by simp [listJoin]]
    rw [jpegRebuildAux_sos]
    simp
  | cons s segs ih =>
    intro f hwf hnc hf
    obtain ⟨f', rfl⟩ : ∃ f', f = f' + 1 := ⟨f - 1, by omega⟩
    rw [show listJoin (List.map encodeJSeg (s :: segs)) ++
        (0xFF :: 0xDA :: tail) =
      encodeJSeg s ++ (listJoin (List.map encodeJSeg segs) ++
        (0xFF :: 0xDA :: tail)) from by
      simp [listJoin, List.append_assoc]]
    have hs : JSegWF s := hwf s (by simp)
    have hrest : ∀ t ∈ segs, JSegWF t := fun t ht => hwf t (by simp [ht])
    have hncrest : ∀ t ∈ segs, isComSeg t = false :=
      fun t ht => hnc t (by simp [ht])
    have hlen : segs.length + 1 ≤ f' := by
      simp only [List.length_cons] at hf; omega
    match s with
    | .standalone m =>
      rw [jpegRebuildAux_standalone com f' m _ false hs]
      rw [ih f' hrest hncrest hlen]
      simp [encodeJSeg]
    | .seg m p =>
      have hm : m ≠ 0xFE := by
        have := hnc (.seg m p) (by simp)
        simpa [isComSeg] using this
      rw [jpegRebuildAux_dataseg com f' m p _ false hs hm]
      rw [ih f' hrest hncrest hlen]
      simp

theorem jpegRebuildAux_concat_replace (com : List Nat) (tail : List Nat)
    (p : List Nat) (s2 : List JSeg) :
    ∀ (s1 : List JSeg) (f : Nat), (∀ s ∈ s1, JSegWF s) →
      (∀ s ∈ s1, isComSeg s = false) →
      JSegWF (JSeg.seg 0xFE p) → (∀ s ∈ s2, JSegWF s) →
      (s1 ++ JSeg.seg 0xFE p :: s2).length + 1 ≤ f →
      jpegRebuildAux com f
          (listJoin ((s1 ++ JSeg.seg 0xFE p :: s2).map encodeJSeg) ++
            (0xFF :: 0xDA :: tail)) false =
        (s1.map encodeJSeg ++ com ::
          ((s2.filter (fun s => !isComSeg s)).map encodeJSeg ++
            [0xFF :: 0xDA :: tail]), true) := by
  intro s1
  induction s1 with
  | nil =>
    intro f _ _ hcom hwf2 hf
    obtain ⟨f', rfl⟩ : ∃ f', f = f' + 1 := ⟨f - 1, by omega⟩
    rw [show listJoin (List.map encodeJSeg ([] ++ JSeg.seg 0xFE p :: s2)) ++
        (0xFF :: 0xDA :: tail) =
      encodeJSeg (JSeg.seg 0xFE p) ++
        (listJoin (List.map encodeJSeg s2) ++ (0xFF :: 0xDA :: tail)) from by
      simp [listJoin, List.append_assoc]]
    rw [jpegRebuildAux_comseg_replace com f' p _ hcom]
    have hlen : s2.length + 1 ≤ f' := by
      simp only [List.nil_append, List.length_cons] at hf; omega
    rw [jpegRebuildAux_concat_true com tail s2 f' hwf2 hlen]
    simp
  | cons s s1 ih =>
    intro f hwf hnc hcom hwf2 hf
    obtain ⟨f', rfl⟩ : ∃ f', f = f' + 1 := ⟨f - 1, by omega⟩
    rw [show listJoin (List.map encodeJSeg
        ((s :: s1) ++ JSeg.seg 0xFE p :: s2)) ++ (0xFF :: 0xDA :: tail) =
      encodeJSeg s ++
        (listJoin (List.map encodeJSeg (s1 ++ JSeg.seg 0xFE p :: s2)) ++
          (0xFF :: 0xDA :: tail)) from by
      simp [listJoin, List.append_assoc]]
    have hs : JSegWF s := hwf s (by simp)
    have hrest : ∀ t ∈ s1, JSegWF t := fun t ht => hwf t (by simp [ht])
    have hncrest : ∀ t ∈ s1, isComSeg t = false :=
      fun t ht => hnc t (by simp [ht])
    have hlen : (s1 ++ JSeg.seg 0xFE p :: s2).length + 1 ≤ f' := by
      simp only [List.cons_append, List.length_cons] at hf
      simp only [List.length_append, List.length_cons] at hf ⊢
      omega
    match s with
    | .standalone m =>
      rw [jpegRebuildAux_standalone com f' m _ false hs]
      rw [ih f' hrest hncrest hcom hwf2 hlen]
      simp [encodeJSeg]
    | .seg m p' =>
      have hm : m ≠ 0xFE := by
        have := hnc (.seg m p') (by simp)
        simpa [isComSeg] using this
      rw [jpegRebuildAux_dataseg com f' m p' _ false hs hm]
      rw [ih f' hrest hncrest hcom hwf2 hlen]
      simp

theorem writeJpeg_insert_eq (text : List Char) (segs : List JSeg)
    (tail : List Nat) (hwf : ∀ s ∈ segs, JSegWF s)
    (hnc : ∀ s ∈ segs, isComSeg s = false)
    (htr : jsTrim text ≠ []) (hlen : (utf8Encode text).length + 2 ≤ 65535) :
    writeJpegEmbeddedMetadata text
        (0xFF :: 0xD8 ::
          (listJoin (segs.map encodeJSeg) ++ (0xFF :: 0xDA :: tail))) =
      some (0xFF :: 0xD8 :: (listJoin (segs.map encodeJSeg) ++
        (buildComMarker (utf8Encode text) ++ (0xFF :: 0xDA :: tail)))) := by
  simp only [writeJpegEmbeddedMetadata]
  rw [if_neg htr]
  rw [if_neg (by omega)]
  have hfuel : segs.length + 1 ≤
      (0xFF :: 0xD8 ::
        (listJoin (segs.map encodeJSeg) ++ (0xFF :: 0xDA :: tail))).length
        + 1 := by
    have := length_le_listJoin_encode segs
    simp only [List.length_cons, List.length_append]
    omega
  rw [jpegRebuildAux_concat_nocom (buildComMarker (utf8Encode text)) tail
    segs _ hwf hnc hfuel]
  simp [listJoin_append, listJoin]

theorem writeJpeg_replace_eq (text : List Char) (s1 : List JSeg)
    (p : List Nat) (s2 : List JSeg) (tail : List Nat)
    (hwf1 : ∀ s ∈ s1, JSegWF s) (hnc1 : ∀ s ∈ s1, isComSeg s = false)
    (hcom : JSegWF (JSeg.seg 0xFE p)) (hwf2 : ∀ s ∈ s2, JSegWF s)
    (htr : jsTrim text ≠ []) (hlen : (utf8Encode text).length + 2 ≤ 65535) :
    writeJpegEmbeddedMetadata text
        (0xFF :: 0xD8 ::
          (listJoin ((s1 ++ JSeg.seg 0xFE p :: s2).map encodeJSeg) ++
            (0xFF :: 0xDA :: tail))) =
      some (0xFF :: 0xD8 :: (listJoin (s1.map encodeJSeg) ++
        (buildComMarker (utf8Encode text) ++
          (listJoin ((s2.filter (fun s => !isComSeg s)).map encodeJSeg) ++
            (0xFF :: 0xDA :: tail))))) := by
  simp only [writeJpegEmbeddedMetadata]
  rw [if_neg htr]
  rw [if_neg (by omega)]
  have hfuel : (s1 ++ JSeg.seg 0xFE p :: s2).length + 1 ≤
      (0xFF :: 0xD8 ::
        (listJoin ((s1 ++ JSeg.seg 0xFE p :: s2).map encodeJSeg) ++
          (0xFF :: 0xDA :: tail))).length + 1 := by
    have := length_le_listJoin_encode (s1 ++ JSeg.seg 0xFE p :: s2)
    simp only [List.length_cons, List.length_append] at this ⊢
    omega
  rw [jpegRebuildAux_concat_replace (buildComMarker (utf8Encode text)) tail
    p s2 s1 _ hwf1 hnc1 hcom hwf2 hfuel]
  simp [listJoin_append, listJoin]

theorem parseJpegMarkersAux_standalone (f : Nat) (m : Nat) (R : List Nat)
    (hwf : JSegWF (JSeg.standalone m)) :
    parseJpegMarkersAux (f + 1) (encodeJSeg (JSeg.standalone m) ++ R) =
      (m, []) :: parseJpegMarkersAux f R := by
  have hm : (0xD0 ≤ m ∧ m ≤ 0xD7) ∨ m = 0x01 := hwf
  rw [encodeJSeg_standalone_shape]
  simp only [parseJpegMarkersAux]
  rw [if_neg (by simp)]
  rw [if_neg (by omega)]
  rw [if_pos (by omega)]
  rw [if_neg (by omega)]

theorem parseJpegMarkersAux_dataseg (f : Nat) (m : Nat) (p : List Nat)
    (R : List Nat) (hwf : JSegWF (JSeg.seg m p)) :
    parseJpegMarkersAux (f + 1) (encodeJSeg (JSeg.seg m p) ++ R) =
      (m, p) :: parseJpegMarkersAux f R := by
  obtain ⟨hff, hd8, hd9, hda, h01, hrst, hlen⟩ := hwf
  rw [encodeJSeg_seg_shape]
  simp only [parseJpegMarkersAux]
  rw [if_neg (by simp)]
  rw [if_neg (by omega)]
  rw [if_neg (by push_neg; refine ⟨by omega, by omega, by omega, by omega⟩)]
  rw [if_neg (by omega)]
  rw [show ((p.length + 2) / 256 % 256) * 256 + (p.length + 2) % 256 =
    p.length + 2 from be16_read _ (by omega)]
  rw [if_pos ?gplen]
  case gplen =>
    constructor
    · omega
    · simp only [List.length_cons, List.length_append]
      omega
  rw [show p.length + 2 - 2 = p.length from by omega]
  rw [List.take_left' rfl]
  rw [show (((p.length + 2) / 256 % 256) :: ((p.length + 2) % 256) ::
      (p ++ R)).drop (p.length + 2) = R from by
    rw [show ((p.length + 2) / 256 % 256) :: ((p.length + 2) % 256) ::
      (p ++ R) = ((((p.length + 2) / 256 % 256) :: ((p.length + 2) % 256) ::
        p) ++ R) from by simp]
    exact List.drop_left' (by simp)]

theorem parseJpegMarkersAux_sos (f : Nat) (R : List Nat) :
    parseJpegMarkersAux (f + 1) (0xFF :: 0xDA :: R) = [(0xDA, [])] := by
  simp only [parseJpegMarkersAux]
  rw [if_neg (by simp)]
  rw [if_neg (by omega)]
  rw [if_neg (by push_neg; refine ⟨by omega, by omega, by omega, by omega⟩)]
  rw [if_pos trivial]

theorem parseJpegMarkersAux_concat (tail : List Nat) :
    ∀ (segs : List JSeg) (f : Nat), (∀ s ∈ segs, JSegWF s) →
      segs.length + 1 ≤ f →
      parseJpegMarkersAux f
          (listJoin (segs.map encodeJSeg) ++ (0xFF :: 0xDA :: tail)) =
        segs.map jsegMarker ++ [(0xDA, [])] := by
  intro segs
  induction segs with
  | nil =>
    intro f _ hf
    obtain ⟨f', rfl⟩ : ∃ f', f = f' + 1 := ⟨f - 1, by omega⟩
    rw [show listJoin (List.map encodeJSeg []) ++ (0xFF :: 0xDA :: tail) =
      0xFF :: 0xDA :: tail from by simp [listJoin]]
    rw [parseJpegMarkersAux_sos]
    simp
  | cons s segs ih =>
    intro f hwf hf
    obtain ⟨f', rfl⟩ : ∃ f', f = f' + 1 := ⟨f - 1, by omega⟩
    rw [show listJoin (List.map encodeJSeg (s :: segs)) ++
        (0xFF :: 0xDA :: tail) =
      encodeJSeg s ++ (listJoin (List.map encodeJSeg segs) ++
        (0xFF :: 0xDA :: tail)) from by
      simp [listJoin, List.append_assoc]]
    have hs : JSegWF s := hwf s (by simp)
    have hrest : ∀ t ∈ segs, JSegWF t := fun t ht => hwf t (by simp [ht])
    have hlen : segs.length + 1 ≤ f' := by
      simp only [List.length_cons] at hf; omega
    match s with
    | .standalone m =>
      rw [parseJpegMarkersAux_standalone f' m _ hs]
      rw [ih f' hrest hlen]
      simp [jsegMarker]
    | .seg m p =>
      rw [parseJpegMarkersAux_dataseg f' m p _ hs]
      rw [ih f' hrest hlen]
      simp [jsegMarker]

theorem parseJpegMarkers_concat (segs : List JSeg) (tail : List Nat)
    (hwf : ∀ s ∈ segs, JSegWF s) :
    parseJpegMarkers
        (0xFF :: 0xD8 ::
          (listJoin (segs.map encodeJSeg) ++ (0xFF :: 0xDA :: tail))) =
      some (segs.map jsegMarker ++ [(0xDA, [])]) := by
  simp only [parseJpegMarkers]
  rw [parseJpegMarkersAux_concat tail segs _ hwf ?hfl]
  case hfl =>
    have := length_le_listJoin_encode segs
    simp only [List.length_cons, List.length_append]
    omega

theorem countCom_map_jsegMarker :
    ∀ (L : List JSeg), (∀ s ∈ L, JSegWF s) →
      List.countP (fun m => decide (m.1 = 0xFE)) (L.map jsegMarker) =
        List.countP isComSeg L := by
  intro L
  induction L with
  | nil => intro _; rfl
  | cons s L ih =>
    intro hwf
    have hrest : ∀ t ∈ L, JSegWF t := fun t ht => hwf t (by simp [ht])
    match s with
    | .standalone m =>
      have hm : (0xD0 ≤ m ∧ m ≤ 0xD7) ∨ m = 0x01 :=
        hwf (JSeg.standalone m) (by simp)
      simp only [List.map_cons, List.countP_cons, ih hrest, jsegMarker,
        isComSeg]
      rw [if_neg (by simp; omega)]
      simp
    | .seg m p =>
      simp only [List.map_cons, List.countP_cons, ih hrest, jsegMarker,
        isComSeg]

theorem readJpegComment_skip (ms2 : List (Nat × List Nat)) :
    ∀ (ms1 : List (Nat × List Nat)),
      (∀ m ∈ ms1, ¬ (m.1 = 0xFE ∧ m.2 ≠ [])) →
      readJpegComment (ms1 ++ ms2) = readJpegComment ms2 := by
  intro ms1
  induction ms1 with
  | nil => intro _; rfl
  | cons m ms1 ih =>
    intro h
    obtain ⟨a, b⟩ := m
    simp only [List.cons_append, readJpegComment]
    rw [if_neg (h (a, b) (by simp))]
    exact ih (fun m hm => h m (by simp [hm]))

theorem buildComMarker_eq_encode (tb : List Nat) :
    buildComMarker tb = encodeJSeg (JSeg.seg 0xFE tb) := rfl

theorem comSegWF (tb : List Nat) (h : tb.length + 2 ≤ 65535) :
    JSegWF (JSeg.seg 0xFE tb) :=
  ⟨by omega, by omega, by omega, by omega, by omega, by omega, h⟩

theorem exists_first_com (segs : List JSeg) :
    (∀ s ∈ segs, isComSeg s = false) ∨
      ∃ s1 p s2, segs = s1 ++ JSeg.seg 0xFE p :: s2 ∧
        ∀ s ∈ s1, isComSeg s = false := by
  induction segs with
  | nil => left; intro s hs; cases hs
  | cons s segs ih =>
    by_cases hc : isComSeg s = true
    · right
      match s, hc with
      | .seg m p, hc =>
        have hm : m = 0xFE := by simpa [isComSeg] using hc
        subst hm
        exact ⟨[], p, segs, by simp, by intro t ht; cases ht⟩
    · rcases ih with h | ⟨s1, p, s2, heq, hnc⟩
      · left
        intro t ht
        rcases List.mem_cons.mp ht with rfl | ht2
        · simpa using hc
        · exact h t ht2
      · right
        refine ⟨s :: s1, p, s2, by simp [heq], ?_⟩
        intro t ht
        rcases List.mem_cons.mp ht with rfl | ht2
        · simpa using hc
        · exact hnc t ht2

theorem countP_isComSeg_filter (l : List JSeg) :
    List.countP isComSeg (l.filter (fun s => !isComSeg s)) = 0 := by
  rw [List.countP_eq_zero]
  intro s hs
  have := (List.mem_filter.mp hs).2
  simp at this
  simp [this]

theorem writeJpeg_insert_concat (text : List Char) (segs : List JSeg)
    (tail : List Nat) (hwf : ∀ s ∈ segs, JSegWF s)
    (hnc : ∀ s ∈ segs, isComSeg s = false)
    (htr : jsTrim text ≠ []) (hlen : (utf8Encode text).length + 2 ≤ 65535) :
    writeJpegEmbeddedMetadata text
        (0xFF :: 0xD8 ::
          (listJoin (segs.map encodeJSeg) ++ (0xFF :: 0xDA :: tail))) =
      some (0xFF :: 0xD8 ::
        (listJoin ((segs ++ [JSeg.seg 0xFE (utf8Encode text)]).map
          encodeJSeg) ++ (0xFF :: 0xDA :: tail))) := by
  rw [writeJpeg_insert_eq text segs tail hwf hnc htr hlen]
  rw [buildComMarker_eq_encode]
  simp [listJoin_append, listJoin, List.append_assoc]

theorem writeJpeg_replace_concat (text : List Char) (s1 : List JSeg)
    (p : List Nat) (s2 : List JSeg) (tail : List Nat)
    (hwf1 : ∀ s ∈ s1, JSegWF s) (hnc1 : ∀ s ∈ s1, isComSeg s = false)
    (hcom : JSegWF (JSeg.seg 0xFE p)) (hwf2 : ∀ s ∈ s2, JSegWF s)
    (htr : jsTrim text ≠ []) (hlen : (utf8Encode text).length + 2 ≤ 65535) :
    writeJpegEmbeddedMetadata text
        (0xFF :: 0xD8 ::
          (listJoin ((s1 ++ JSeg.seg 0xFE p :: s2).map encodeJSeg) ++
            (0xFF :: 0xDA :: tail))) =
      some (0xFF :: 0xD8 ::
        (listJoin ((s1 ++ JSeg.seg 0xFE (utf8Encode text) ::
          s2.filter (fun s => !isComSeg s)).map encodeJSeg) ++
          (0xFF :: 0xDA :: tail))) := by
  rw [writeJpeg_replace_eq text s1 p s2 tail hwf1 hnc1 hcom hwf2 htr hlen]
  rw [buildComMarker_eq_encode]
  simp [listJoin_append, listJoin, List.append_assoc]

/-- C5: for every structured JPEG stream (well-formed marker segments
before SOS) and every non-whitespace text whose COM payload fits in
16 bits, _writeJpegEmbeddedMetadata drops every pre-existing COM marker
and emits exactly one new COM carrying the UTF-8 text — placed where the
first dropped COM stood, or immediately before SOS when none existed —
while the bytes from SOS onward are copied verbatim; parsing the output
finds exactly one COM marker, and writing twice equals writing once. -/
theorem c5_jpeg_write_frame (text : List Char)
    (htr : jsTrim text ≠ []) (hlen : (utf8Encode text).length + 2 ≤ 65535) :
    (∀ (s1 : List JSeg) (p : List Nat) (s2 : List JSeg) (tail : List Nat),
      (∀ s ∈ s1, JSegWF s) → (∀ s ∈ s1, isComSeg s = false) →
      JSegWF (JSeg.seg 0xFE p) → (∀ s ∈ s2, JSegWF s) →
      writeJpegEmbeddedMetadata text
          (0xFF :: 0xD8 ::
            (listJoin ((s1 ++ JSeg.seg 0xFE p :: s2).map encodeJSeg) ++
              (0xFF :: 0xDA :: tail))) =
        some (0xFF :: 0xD8 :: (listJoin (s1.map encodeJSeg) ++
          (buildComMarker (utf8Encode text) ++
            (listJoin ((s2.filter (fun s => !isComSeg s)).map encodeJSeg) ++
              (0xFF :: 0xDA :: tail)))))) ∧
    (∀ (segs : List JSeg) (tail : List Nat),
      (∀ s ∈ segs, JSegWF s) → (∀ s ∈ segs, isComSeg s = false) →
      writeJpegEmbeddedMetadata text
          (0xFF :: 0xD8 ::
            (listJoin (segs.map encodeJSeg) ++ (0xFF :: 0xDA :: tail))) =
        some (0xFF :: 0xD8 :: (listJoin (segs.map encodeJSeg) ++
          (buildComMarker (utf8Encode text) ++ (0xFF :: 0xDA :: tail))))) ∧
    (∀ (segs : List JSeg) (tail : List Nat),
      (∀ s ∈ segs, JSegWF s) →
      ∀ out, writeJpegEmbeddedMetadata text
          (0xFF :: 0xD8 ::
            (listJoin (segs.map encodeJSeg) ++ (0xFF :: 0xDA :: tail))) =
          some out →
      ∃ ms, parseJpegMarkers out = some ms ∧
        List.countP (fun m => decide (m.1 = 0xFE)) ms = 1) ∧
    (∀ (segs : List JSeg) (tail : List Nat),
      (∀ s ∈ segs, JSegWF s) →
      (writeJpegEmbeddedMetadata text
          (0xFF :: 0xD8 ::
            (listJoin (segs.map encodeJSeg) ++
              (0xFF :: 0xDA :: tail)))).bind
          (writeJpegEmbeddedMetadata text) =
        writeJpegEmbeddedMetadata text
          (0xFF :: 0xD8 ::
            (listJoin (segs.map encodeJSeg) ++ (0xFF :: 0xDA :: tail)))) := by
  refine ⟨?conj1, ?conj2, ?conj3, ?conj4⟩
  case conj1 =>
    intro s1 p s2 tail hwf1 hnc1 hcom hwf2
    exact writeJpeg_replace_eq text s1 p s2 tail hwf1 hnc1 hcom hwf2 htr hlen
  case conj2 =>
    intro segs tail hwf hnc
    exact writeJpeg_insert_eq text segs tail hwf hnc htr hlen
  case conj3 =>
    intro segs tail hwf out hw
    rcases exists_first_com segs with hnc | ⟨s1, p, s2, heq, hnc1⟩
    · rw [writeJpeg_insert_concat text segs tail hwf hnc htr hlen] at hw
      have hout := Option.some.injEq _ _ ▸ hw
      simp only [Option.some.injEq] at hw
      have hwfL : ∀ s ∈ segs ++ [JSeg.seg 0xFE (utf8Encode text)],
          JSegWF s := by
        intro s hs
        rcases List.mem_append.mp hs with h | h
        · exact hwf s h
        · simp only [List.mem_singleton] at h
          subst h
          exact comSegWF _ hlen
      refine ⟨(segs ++ [JSeg.seg 0xFE (utf8Encode text)]).map jsegMarker ++
        [(0xDA, [])], ?_, ?_⟩
      · rw [← hw]
        exact parseJpegMarkers_concat _ tail hwfL
      · rw [List.countP_append, countCom_map_jsegMarker _ hwfL,
          List.countP_append]
        have h0 : List.countP isComSeg segs = 0 := by
          rw [List.countP_eq_zero]
          intro s hs
          simp [hnc s hs]
        simp [h0, List.countP_cons, isComSeg]
    · subst heq
      have hwf1 : ∀ s ∈ s1, JSegWF s := fun s hs => hwf s (by simp [hs])
      have hcom : JSegWF (JSeg.seg 0xFE p) := hwf _ (by simp)
      have hwf2 : ∀ s ∈ s2, JSegWF s := fun s hs => hwf s (by simp [hs])
      rw [writeJpeg_replace_concat text s1 p s2 tail hwf1 hnc1 hcom hwf2
        htr hlen] at hw
      simp only [Option.some.injEq] at hw
      have hwfL : ∀ s ∈ s1 ++ JSeg.seg 0xFE (utf8Encode text) ::
          s2.filter (fun s => !isComSeg s), JSegWF s := by
        intro s hs
        rcases List.mem_append.mp hs with h | h
        · exact hwf1 s h
        · rcases List.mem_cons.mp h with rfl | h2
          · exact comSegWF _ hlen
          · exact hwf2 s (List.mem_filter.mp h2).1
      refine ⟨(s1 ++ JSeg.seg 0xFE (utf8Encode text) ::
        s2.filter (fun s => !isComSeg s)).map jsegMarker ++
        [(0xDA, [])], ?_, ?_⟩
      · rw [← hw]
        exact parseJpegMarkers_concat _ tail hwfL
      · rw [List.countP_append, countCom_map_jsegMarker _ hwfL,
          List.countP_append, List.countP_cons]
        have h0 : List.countP isComSeg s1 = 0 := by
          rw [List.countP_eq_zero]
          intro s hs
          simp [hnc1 s hs]
        simp [h0, countP_isComSeg_filter, isComSeg]
  case conj4 =>
    intro segs tail hwf
    rcases exists_first_com segs with hnc | ⟨s1, p, s2, heq, hnc1⟩
    · rw [writeJpeg_insert_concat text segs tail hwf hnc htr hlen]
      rw [Option.some_bind]
      rw [writeJpeg_replace_concat text segs (utf8Encode text) [] tail hwf
        hnc (comSegWF _ hlen) (by intro s hs; cases hs) htr hlen]
      simp
    · subst heq
      have hwf1 : ∀ s ∈ s1, JSegWF s := fun s hs => hwf s (by simp [hs])
      have hcom : JSegWF (JSeg.seg 0xFE p) := hwf _ (by simp)
      have hwf2 : ∀ s ∈ s2, JSegWF s := fun s hs => hwf s (by simp [hs])
      have hwf2f : ∀ s ∈ s2.filter (fun s => !isComSeg s), JSegWF s :=
        fun s hs => hwf2 s (List.mem_filter.mp hs).1
      rw [writeJpeg_replace_concat text s1 p s2 tail hwf1 hnc1 hcom hwf2
        htr hlen]
      rw [Option.some_bind]
      rw [writeJpeg_replace_concat text s1 (utf8Encode text)
        (s2.filter (fun s => !isComSeg s)) tail hwf1 hnc1
        (comSegWF _ hlen) hwf2f htr hlen]
      rw [List.filter_filter]
      simp

theorem c5_witness :
    jsTrim "hi".data ≠ [] ∧ (utf8Encode "hi".data).length + 2 ≤ 65535 ∧
    writeJpegEmbeddedMetadata "hi".data
        (0xFF :: 0xD8 ::
          (listJoin (([JSeg.seg 0xE0 [1, 2, 3]] ++ JSeg.seg 0xFE [111] ::
            [JSeg.seg 0xFE [99]]).map encodeJSeg) ++
            (0xFF :: 0xDA :: [9, 9, 255, 217]))) =
      some (0xFF :: 0xD8 ::
        (listJoin ([JSeg.seg 0xE0 [1, 2, 3]].map encodeJSeg) ++
          (buildComMarker (utf8Encode "hi".data) ++
            (listJoin (([JSeg.seg 0xFE [99]].filter
              (fun s => !isComSeg s)).map encodeJSeg) ++
              (0xFF :: 0xDA :: [9, 9, 255, 217]))))) :=
  ⟨by decide, by decide,
    (c5_jpeg_write_frame "hi".data (by decide) (by decide)).1
      [JSeg.seg 0xE0 [1, 2, 3]] [111] [JSeg.seg 0xFE [99]] [9, 9, 255, 217]
      (by decide) (by decide) (by decide) (by decide)⟩

theorem readJpegComment_markers_nocom (s1 : List JSeg)
    (hnc : ∀ s ∈ s1, isComSeg s = false) :
    ∀ m ∈ s1.map jsegMarker, ¬ (m.1 = 0xFE ∧ m.2 ≠ []) := by
  intro m hm
  rcases List.mem_map.mp hm with ⟨s, hs, rfl⟩
  match s with
  | .standalone m' => simp [jsegMarker]
  | .seg m' p =>
    have := hnc (.seg m' p) hs
    simp only [isComSeg, decide_eq_false_iff_not] at this
    simp [jsegMarker, this]

theorem readJpeg_concat_out (text : List Char) (s1 rest : List JSeg)
    (tail : List Nat)
    (hwf : ∀ s ∈ s1 ++ JSeg.seg 0xFE (utf8Encode text) :: rest, JSegWF s)
    (hnc1 : ∀ s ∈ s1, isComSeg s = false) (htr : jsTrim text ≠ []) :
    readJpegEmbeddedDescription
        (0xFF :: 0xD8 ::
          (listJoin ((s1 ++ JSeg.seg 0xFE (utf8Encode text) :: rest).map
            encodeJSeg) ++ (0xFF :: 0xDA :: tail))) =
      some (jsTrim text) := by
  have hp : parseJpegMarkers
      (0xFF :: 0xD8 ::
        (listJoin ((s1 ++ JSeg.seg 0xFE (utf8Encode text) :: rest).map
          encodeJSeg) ++ (0xFF :: 0xDA :: tail))) =
      some (s1.map jsegMarker ++ ((0xFE, utf8Encode text) ::
        (rest.map jsegMarker ++ [(0xDA, [])]))) := by
    rw [parseJpegMarkers_concat _ tail hwf]
    simp [jsegMarker]
  have hc : readJpegComment (s1.map jsegMarker ++ ((0xFE, utf8Encode text) ::
      (rest.map jsegMarker ++ [(0xDA, [])]))) = some (jsTrim text) := by
    rw [readJpegComment_skip _ _ (readJpegComment_markers_nocom s1 hnc1)]
    simp only [readJpegComment]
    rw [if_pos ⟨trivial, utf8Encode_ne_nil (ne_nil_of_jsTrim htr)⟩]
    rw [utf8Decode_encode]
  simp only [readJpegEmbeddedDescription, hp, hc]
  rw [if_neg htr]

/-- C6 counterexample: writing the COM description " hi " into a minimal
JPEG and reading it back yields "hi" — the read path trims the decoded COM
payload, so a text with leading or trailing whitespace does not survive the
round trip exactly. -/
theorem c6_counterexample :
    (writeJpegEmbeddedMetadata " hi ".data
        [0xFF, 0xD8, 0xFF, 0xE0, 0, 5, 1, 2, 3,
          0xFF, 0xDA, 9, 9, 0xFF, 0xD9]).bind
      readJpegEmbeddedDescription = some "hi".data ∧
    "hi".data ≠ " hi ".data := by
  constructor
  · decide
  · decide

/-- C6 (amended): for every structured JPEG stream and every
non-whitespace text with a 16-bit-sized COM payload, writing the embedded
COM description and then reading the embedded JPEG metadata returns the
JS-TRIMMED original text — _readJpegComment trims the decoded payload — so
the round trip returns exactly the original text precisely when the text
has no leading or trailing JS whitespace. -/
theorem c6_jpeg_roundtrip (text : List Char)
    (htr : jsTrim text ≠ []) (hlen : (utf8Encode text).length + 2 ≤ 65535) :
    (∀ (s1 : List JSeg) (p : List Nat) (s2 : List JSeg) (tail : List Nat),
      (∀ s ∈ s1, JSegWF s) → (∀ s ∈ s1, isComSeg s = false) →
      JSegWF (JSeg.seg 0xFE p) → (∀ s ∈ s2, JSegWF s) →
      (writeJpegEmbeddedMetadata text
          (0xFF :: 0xD8 ::
            (listJoin ((s1 ++ JSeg.seg 0xFE p :: s2).map encodeJSeg) ++
              (0xFF :: 0xDA :: tail)))).bind
          readJpegEmbeddedDescription = some (jsTrim text)) ∧
    (∀ (segs : List JSeg) (tail : List Nat),
      (∀ s ∈ segs, JSegWF s) → (∀ s ∈ segs, isComSeg s = false) →
      (writeJpegEmbeddedMetadata text
          (0xFF :: 0xD8 ::
            (listJoin (segs.map encodeJSeg) ++
              (0xFF :: 0xDA :: tail)))).bind
          readJpegEmbeddedDescription = some (jsTrim text)) ∧
    (jsTrim text = text →
      ∀ (segs : List JSeg) (tail : List Nat),
      (∀ s ∈ segs, JSegWF s) → (∀ s ∈ segs, isComSeg s = false) →
      (writeJpegEmbeddedMetadata text
          (0xFF :: 0xD8 ::
            (listJoin (segs.map encodeJSeg) ++
              (0xFF :: 0xDA :: tail)))).bind
          readJpegEmbeddedDescription = some text) := by
  have hinsert : ∀ (segs : List JSeg) (tail : List Nat),
      (∀ s ∈ segs, JSegWF s) → (∀ s ∈ segs, isComSeg s = false) →
      (writeJpegEmbeddedMetadata text
          (0xFF :: 0xD8 ::
            (listJoin (segs.map encodeJSeg) ++
              (0xFF :: 0xDA :: tail)))).bind
          readJpegEmbeddedDescription = some (jsTrim text) := by
    intro segs tail hwf hnc
    rw [writeJpeg_insert_concat text segs tail hwf hnc htr hlen]
    rw [Option.some_bind]
    rw [show segs ++ [JSeg.seg 0xFE (utf8Encode text)] =
      segs ++ JSeg.seg 0xFE (utf8Encode text) :: [] from rfl]
    refine readJpeg_concat_out text segs [] tail ?_ hnc htr
    intro s hs
    rcases List.mem_append.mp hs with h | h
    · exact hwf s h
    · rcases List.mem_cons.mp h with rfl | h2
      · exact comSegWF _ hlen
      · cases h2
  refine ⟨?_, hinsert, ?_⟩
  · intro s1 p s2 tail hwf1 hnc1 hcom hwf2
    rw [writeJpeg_replace_concat text s1 p s2 tail hwf1 hnc1 hcom hwf2
      htr hlen]
    rw [Option.some_bind]
    refine readJpeg_concat_out text s1 (s2.filter (fun s => !isComSeg s))
      tail ?_ hnc1 htr
    intro s hs
    rcases List.mem_append.mp hs with h | h
    · exact hwf1 s h
    · rcases List.mem_cons.mp h with rfl | h2
      · exact comSegWF _ hlen
      · exact hwf2 s (List.mem_filter.mp h2).1
  · intro hfix segs tail hwf hnc
    rw [hinsert segs tail hwf hnc, hfix]

theorem c6_roundtrip_witness :
    jsTrim "hi".data ≠ [] ∧ (utf8Encode "hi".data).length + 2 ≤ 65535 ∧
    (writeJpegEmbeddedMetadata "hi".data
        (0xFF :: 0xD8 ::
          (listJoin ([JSeg.seg 0xE0 [1, 2, 3]].map encodeJSeg) ++
            (0xFF :: 0xDA :: [9, 9, 255, 217])))).bind
      readJpegEmbeddedDescription = some (jsTrim "hi".data) :=
  ⟨by decide, by decide,
    ((c6_jpeg_roundtrip "hi".data (by decide) (by decide)).2.1
      [JSeg.seg 0xE0 [1, 2, 3]] [9, 9, 255, 217] (by decide) (by decide))⟩

theorem exifEntryLoop_skip (tiff : List Nat) (isLE : Bool) (ifd0 r i : Nat)
    (hb : ¬ tiff.length < ifd0 + 2 + i * 12 + 12)
    (hnm : ¬ (readU16At isLE tiff (ifd0 + 2 + i * 12) = 0x010E ∧
      readU16At isLE tiff (ifd0 + 2 + i * 12 + 2) = 2)) :
    exifEntryLoop tiff isLE ifd0 (r + 1) i =
      exifEntryLoop tiff isLE ifd0 r (i + 1) := by
  simp only [exifEntryLoop]
  rw [if_neg hb]
  rw [if_neg hnm]

theorem ite_none_guard_some {P : Prop} [Decidable P] (X s : List Char)
    (h : (if P then none else if X = [] then none else some X) = some s) :
    s ≠ [] := by
  by_cases hp : P
  · rw [if_pos hp] at h; cases h
  · rw [if_neg hp] at h
    by_cases hx : X = []
    · rw [if_pos hx] at h; cases h
    · rw [if_neg hx] at h
      rw [Option.some.injEq] at h
      rw [← h]
      exact hx

theorem exifEntryLoop_some_ne_nil (tiff : List Nat) (isLE : Bool)
    (ifd0 : Nat) :
    ∀ (rem i : Nat) (s : List Char),
      exifEntryLoop tiff isLE ifd0 rem i = some s → s ≠ [] := by
  intro rem
  induction rem with
  | zero => intro i s h; cases h
  | succ r ih =>
    intro i s h
    simp only [exifEntryLoop] at h
    by_cases hb : tiff.length < ifd0 + 2 + i * 12 + 12
    · rw [if_pos hb] at h; cases h
    · rw [if_neg hb] at h
      by_cases hm : readU16At isLE tiff (ifd0 + 2 + i * 12) = 0x010E ∧
          readU16At isLE tiff (ifd0 + 2 + i * 12 + 2) = 2
      · rw [if_pos hm] at h
        exact ite_none_guard_some _ s h
      · rw [if_neg hm] at h
        exact ih (i + 1) s h

theorem jpegExifFallback_skip (ms2 : List (Nat × List Nat)) :
    ∀ (ms1 : List (Nat × List Nat)),
      (∀ m ∈ ms1, m.1 = 0xE1 ∧ 6 < m.2.length →
        (readExifImageDescription m.2 = none ∨
          readExifImageDescription m.2 = some [])) →
      jpegExifFallback (ms1 ++ ms2) = jpegExifFallback ms2 := by
  intro ms1
  induction ms1 with
  | nil => intro _; rfl
  | cons m ms1 ih =>
    intro h
    obtain ⟨a, b⟩ := m
    simp only [List.cons_append, jpegExifFallback]
    have hrest := ih (fun m hm => h m (by simp [hm]))
    by_cases hc : a = 0xE1 ∧ 6 < b.length
    · rw [if_pos hc]
      rcases h (a, b) (by simp) hc with he | he
      · rw [he]
        exact hrest
      · rw [he]
        simp only [if_pos rfl]
        exact hrest
    · rw [if_neg hc]
      exact hrest

theorem exifEntryLoop_first (tiff : List Nat) (isLE : Bool) (ifd0 : Nat) :
    ∀ (k rem i : Nat), k < rem →
      (∀ j, j ≤ k → ¬ tiff.length < ifd0 + 2 + (i + j) * 12 + 12) →
      (∀ j, j < k →
        ¬ (readU16At isLE tiff (ifd0 + 2 + (i + j) * 12) = 0x010E ∧
          readU16At isLE tiff (ifd0 + 2 + (i + j) * 12 + 2) = 2)) →
      readU16At isLE tiff (ifd0 + 2 + (i + k) * 12) = 0x010E →
      readU16At isLE tiff (ifd0 + 2 + (i + k) * 12 + 2) = 2 →
      exifEntryLoop tiff isLE ifd0 rem i =
        (let entryOffset := ifd0 + 2 + (i + k) * 12
         let count := readU32At isLE tiff (entryOffset + 4)
         let valueOffset := readU32At isLE tiff (entryOffset + 8)
         let strOffset := if count ≤ 4 then entryOffset + 8 else valueOffset
         if tiff.length < strOffset + count then none
         else
           let str := asciiDecode ((tiff.drop strOffset).take count)
           let str2 :=
             if str.getLast? = some '\x00' then str.dropLast else str
           if jsTrim str2 = [] then none else some (jsTrim str2)) := by
  intro k
  induction k with
  | zero =>
    intro rem i hrem hb hnm htag hty
    obtain ⟨r, rfl⟩ : ∃ r, rem = r + 1 := ⟨rem - 1, by omega⟩
    simp only [Nat.add_zero] at htag hty ⊢
    simp only [exifEntryLoop]
    rw [if_neg (by simpa using hb 0 (by omega))]
    rw [if_pos ⟨htag, hty⟩]
  | succ k ih =>
    intro rem i hrem hb hnm htag hty
    obtain ⟨r, rfl⟩ : ∃ r, rem = r + 1 := ⟨rem - 1, by omega⟩
    rw [exifEntryLoop_skip tiff isLE ifd0 r i
      (by simpa using hb 0 (by omega))
      (by simpa using hnm 0 (by omega))]
    have hb' : ∀ j, j ≤ k →
        ¬ tiff.length < ifd0 + 2 + (i + 1 + j) * 12 + 12 := by
      intro j hj
      have := hb (j + 1) (by omega)
      rwa [show i + (j + 1) = i + 1 + j from by omega] at this
    have hnm' : ∀ j, j < k →
        ¬ (readU16At isLE tiff (ifd0 + 2 + (i + 1 + j) * 12) = 0x010E ∧
          readU16At isLE tiff (ifd0 + 2 + (i + 1 + j) * 12 + 2) = 2) := by
      intro j hj
      have := hnm (j + 1) (by omega)
      rwa [show i + (j + 1) = i + 1 + j from by omega] at this
    have htag' : readU16At isLE tiff (ifd0 + 2 + (i + 1 + k) * 12) =
        0x010E := by
      rwa [show i + (k + 1) = i + 1 + k from by omega] at htag
    have hty' : readU16At isLE tiff (ifd0 + 2 + (i + 1 + k) * 12 + 2) =
        2 := by
      rwa [show i + (k + 1) = i + 1 + k from by omega] at hty
    rw [ih r (i + 1) (by omega) hb' hnm' htag' hty']
    rw [show i + 1 + k = i + (k + 1) from by omega]

theorem readExif_some_ne_nil (d : List Nat) (s : List Char)
    (h : readExifImageDescription d = some s) : s ≠ [] := by
  simp only [readExifImageDescription] at h
  split at h
  · cases h
  · split at h
    · cases h
    · split at h
      · cases h
      · split at h
        · cases h
        · split at h
          · cases h
          · exact exifEntryLoop_some_ne_nil _ _ _ _ _ s h

/-- C7: _readExifImageDescription walks the Exif header, byte-order tag
(II = little-endian, MM = big-endian), magic 42, IFD0 offset and entry
count, and returns the first IFD0 entry with tag 0x010E and ASCII type 2 —
read inline from the value field when count is at most 4, else at the
stored offset, with one trailing NUL stripped and the result trimmed; and
_readJpegEmbeddedMetadata falls back to the first APP1 segment (payload
longer than 6 bytes) whose Exif parse yields a nonempty description
whenever no COM marker produced a nonempty comment. -/
theorem c7_exif_fallback :
    (∀ (app1Data : List Nat) (isLE : Bool) (ifd0 cnt k : Nat),
      ¬ app1Data.length < 14 →
      latin1Decode (app1Data.take 6) = "Exif\x00\x00".data →
      isLE = decide (asciiDecode ((app1Data.drop 6).take 2) = "II".data) →
      readU16At isLE (app1Data.drop 6) 2 = 42 →
      ifd0 = readU32At isLE (app1Data.drop 6) 4 →
      ¬ (app1Data.drop 6).length < ifd0 + 2 →
      cnt = readU16At isLE (app1Data.drop 6) ifd0 →
      k < cnt →
      (∀ j, j ≤ k →
        ¬ (app1Data.drop 6).length < ifd0 + 2 + j * 12 + 12) →
      (∀ j, j < k →
        ¬ (readU16At isLE (app1Data.drop 6) (ifd0 + 2 + j * 12) = 0x010E ∧
          readU16At isLE (app1Data.drop 6) (ifd0 + 2 + j * 12 + 2) = 2)) →
      readU16At isLE (app1Data.drop 6) (ifd0 + 2 + k * 12) = 0x010E →
      readU16At isLE (app1Data.drop 6) (ifd0 + 2 + k * 12 + 2) = 2 →
      readExifImageDescription app1Data =
        (let tiff := app1Data.drop 6
         let entryOffset := ifd0 + 2 + k * 12
         let count := readU32At isLE tiff (entryOffset + 4)
         let valueOffset := readU32At isLE tiff (entryOffset + 8)
         let strOffset := if count ≤ 4 then entryOffset + 8 else valueOffset
         if tiff.length < strOffset + count then none
         else
           let str := asciiDecode ((tiff.drop strOffset).take count)
           let str2 :=
             if str.getLast? = some '\x00' then str.dropLast else str
           if jsTrim str2 = [] then none else some (jsTrim str2))) ∧
    (∀ (buffer : List Nat) (ms ms1 : List (Nat × List Nat))
        (app1 : List Nat) (ms2 : List (Nat × List Nat)) (s : List Char),
      parseJpegMarkers buffer = some ms →
      (readJpegComment ms = none ∨ readJpegComment ms = some []) →
      ms = ms1 ++ (0xE1, app1) :: ms2 →
      (∀ m ∈ ms1, m.1 = 0xE1 ∧ 6 < m.2.length →
        (readExifImageDescription m.2 = none ∨
          readExifImageDescription m.2 = some [])) →
      6 < app1.length →
      readExifImageDescription app1 = some s →
      readJpegEmbeddedDescription buffer = some s) := by
  constructor
  · intro app1Data isLE ifd0 cnt k h14 hhdr hisLE hmagic hifd0 hb2 hcnt
      hk hb hnm htag hty
    subst hisLE hifd0 hcnt
    simp only [readExifImageDescription]
    rw [if_neg h14]
    rw [if_neg (by simp [hhdr])]
    rw [if_neg (by simp only [List.length_drop]; omega)]
    rw [if_neg (by simp [hmagic])]
    rw [if_neg hb2]
    rw [exifEntryLoop_first _ _ _ k _ 0 hk
      (by intro j hj; simpa using hb j hj)
      (by intro j hj; simpa using hnm j hj)
      (by simpa using htag) (by simpa using hty)]
    simp only [Nat.zero_add]
  · intro buffer ms ms1 app1 ms2 s hparse hcm hsplit hskip h6 hexif
    subst hsplit
    have hne : s ≠ [] := readExif_some_ne_nil app1 s hexif
    have hfb : jpegExifFallback
        (ms1 ++ (0xE1, app1) :: ms2) = some s := by
      rw [jpegExifFallback_skip _ ms1 hskip]
      simp only [jpegExifFallback]
      rw [if_pos ⟨trivial, h6⟩]
      rw [hexif]
      dsimp only
      rw [if_neg hne]
    rcases hcm with hc | hc
    · simp only [readJpegEmbeddedDescription, hparse, hc]
      exact hfb
    · simp only [readJpegEmbeddedDescription, hparse, hc]
      rw [if_pos trivial]
      exact hfb

theorem c7_witness :
    readExifImageDescription
        [69, 120, 105, 102, 0, 0, 73, 73, 42, 0, 8, 0, 0, 0, 1, 0,
          14, 1, 2, 0, 6, 0, 0, 0, 22, 0, 0, 0,
          104, 101, 108, 108, 111, 0] = some "hello".data ∧
    readJpegEmbeddedDescription
        ([255, 216, 255, 225, 0, 36] ++
          [69, 120, 105, 102, 0, 0, 73, 73, 42, 0, 8, 0, 0, 0, 1, 0,
            14, 1, 2, 0, 6, 0, 0, 0, 22, 0, 0, 0,
            104, 101, 108, 108, 111, 0] ++
          [255, 218, 9, 9, 255, 217]) = some "hello".data :=
  ⟨by decide,
    c7_exif_fallback.2
      ([255, 216, 255, 225, 0, 36] ++
        [69, 120, 105, 102, 0, 0, 73, 73, 42, 0, 8, 0, 0, 0, 1, 0,
          14, 1, 2, 0, 6, 0, 0, 0, 22, 0, 0, 0,
          104, 101, 108, 108, 111, 0] ++
        [255, 218, 9, 9, 255, 217])
      [(0xE1,
        [69, 120, 105, 102, 0, 0, 73, 73, 42, 0, 8, 0, 0, 0, 1, 0,
          14, 1, 2, 0, 6, 0, 0, 0, 22, 0, 0, 0,
          104, 101, 108, 108, 111, 0]), (0xDA, [])]
      []
      [69, 120, 105, 102, 0, 0, 73, 73, 42, 0, 8, 0, 0, 0, 1, 0,
        14, 1, 2, 0, 6, 0, 0, 0, 22, 0, 0, 0,
        104, 101, 108, 108, 111, 0]
      [(0xDA, [])]
      "hello".data
      (by decide) (Or.inl (by decide)) (by decide)
      (by simp) (by decide) (by decide)⟩
